import Mathlib

/-!
Verification of the vimple-vendure plugin suite: the channel markup
repricing engine (`channel-markup-reprice.service.ts`), the product sync
orchestrator (`product-event.service.ts`), the WordPress platform client
(`wordpress.service.ts`), the product mapper (`product-mapper.service.ts`)
and the mapping store (`product-mapping.service.ts`).

The TypeScript services are embedded shallowly: database state becomes
explicit record state, remote HTTP calls become oracle parameters carrying
the `{success, data}` result shapes the client returns, JS `Math.round`
becomes floor of `x + 1/2` over ℚ, and JS `parseInt` / `new URL` are
modelled on the string shapes this repository actually stores.
-/

/-! ## Generic helpers -/

/-- Update the first element of a list satisfying `p` by `g`, leaving the
rest unchanged.  This models the source's pattern of mutating the single
entity object returned by a `find` over a loaded relation list. -/
def updateFirst (p : α → Bool) (g : α → α) : List α → List α
  | [] => []
  | x :: xs => if p x then g x :: xs else x :: updateFirst p g xs

/-- Insert a number into an ascending-sorted list, keeping it sorted. -/
def insertAsc (x : Nat) : List Nat → List Nat
  | [] => [x]
  | y :: ys => if x ≤ y then x :: y :: ys else y :: insertAsc x ys

/-- Insertion sort, ascending; models the SQL `ORDER BY product.id ASC`. -/
def sortAsc (l : List Nat) : List Nat := l.foldr insertAsc []

/-- Structural worker for `chunkList`; `fuel` is an upper bound on the
number of chunks still to produce (the list length suffices). -/
def chunkListFuel (n : Nat) : Nat → List Nat → List (List Nat)
  | _, [] => []
  | 0, _ => []
  | fuel + 1, x :: xs => (x :: xs.take (n - 1)) :: chunkListFuel n fuel (xs.drop (n - 1))

/-- Split a list into consecutive chunks of size `n` (the last chunk may be
shorter); models the `for (i = 0; i < len; i += n) slice(i, i + n)` batching
loop of the reprice job. -/
def chunkList (n : Nat) (l : List Nat) : List (List Nat) :=
  chunkListFuel n l.length l

/-- JS `Math.round`: round half toward positive infinity. -/
def jsRound (x : ℚ) : Int := Int.floor (x + 1 / 2)

/-- JS `parseInt` (radix 10) on the decimal strings this repository stores:
trims whitespace, reads an optional sign and then a maximal run of leading
decimal digits; `none` models the `NaN` result when no digit is found.
(The hexadecimal `0x` prefix of the JS builtin is not modelled; the stored
external ids are decimal.) -/
def parseIntJs (s : String) : Option Int :=
  let cs := s.toList.dropWhile Char.isWhitespace
  let neg := decide (cs.head? = some '-')
  let core := if cs.head? = some '-' ∨ cs.head? = some '+' then cs.tail else cs
  let digits := core.takeWhile Char.isDigit
  if digits.isEmpty then none
  else
    let n : Nat := digits.foldl (fun acc c => acc * 10 + (c.toNat - 48)) 0
    some (if neg then -(n : Int) else (n : Int))

/-! ## Channel markup reprice engine (channel-markup-reprice.service.ts)

State model: `ProductVariantPrice` rows live on their variant's
`productVariantPrices` relation, variants carry their `productId`, products
carry the ids of the channels they are assigned to, and channels carry the
`markup` custom field (absent modelled as `none`) and their default
currency.  `defaultChannelId` stands for `channelService.getDefaultChannel`. -/

structure PriceRow where
  channelId : Nat
  currencyCode : String
  price : Int
deriving DecidableEq

structure VariantRec where
  id : Nat
  productId : Nat
  prices : List PriceRow
deriving DecidableEq

structure ProductRec where
  id : Nat
  channelIds : List Nat
deriving DecidableEq

structure ChannelRec where
  id : Nat
  token : String
  markup : Option ℚ
  defaultCurrencyCode : String
deriving DecidableEq

structure RepriceState where
  channels : List ChannelRec
  defaultChannelId : Nat
  products : List ProductRec
  variants : List VariantRec
deriving DecidableEq

def dummyVariant : VariantRec := ⟨0, 0, []⟩

def REPRICE_BATCH_SIZE : Nat := 250

/-- Lines 238-255: list all product ids assigned to the channel, ordered by
id ascending, keeping only finite positive ids. -/
def getAllProductIdsForChannel (s : RepriceState) (channelId : Nat) : List Nat :=
  (sortAsc ((s.products.filter (fun p => decide (channelId ∈ p.channelIds))).map
      ProductRec.id)).filter (fun pid => decide (0 < pid))

/-- Lines 202-229, body of the per-variant loop: find the default-channel
base row (skip the variant if absent), compute
`Math.round(basePrice.price * priceFactor)`, then update the first
target-channel row in place (also correcting its currency) or push a new
row. -/
def repriceStep (defaultChannelId targetChannelId : Nat) (targetCurrencyCode : String)
    (priceFactor : ℚ) (variant : VariantRec) : VariantRec :=
  match variant.prices.find? (fun p => decide (p.channelId = defaultChannelId)) with
  | none => variant
  | some basePrice =>
    let nextPrice := jsRound ((basePrice.price : ℚ) * priceFactor)
    if (variant.prices.find? (fun p => decide (p.channelId = targetChannelId))).isSome then
      { variant with
        prices := updateFirst (fun p => decide (p.channelId = targetChannelId))
          (fun p => { p with price := nextPrice, currencyCode := targetCurrencyCode })
          variant.prices }
    else
      { variant with
        prices := variant.prices ++ [⟨targetChannelId, targetCurrencyCode, nextPrice⟩] }

/-- Lines 183-236: load every variant whose `productId` is in the batch and
reprice it; variants of other products are untouched. -/
def repriceVariantPricesForProducts (productIds : List Nat) (defaultChannelId targetChannelId : Nat)
    (targetCurrencyCode : String) (priceFactor : ℚ) (variants : List VariantRec) :
    List VariantRec :=
  variants.map (fun v =>
    if v.productId ∈ productIds then
      repriceStep defaultChannelId targetChannelId targetCurrencyCode priceFactor v
    else v)

/-- Lines 81-170, `processRepriceJob`: reload the channel, read its current
persisted markup (0 when absent) — not the requested markup carried in the
job payload — compute `priceFactor = 1 + markup / 100`, enumerate the
channel's product ids and reprice them in batches of 250.  Progress
reporting and the republished product events do not change price state and
are not modelled. -/
def processRepriceJob (s : RepriceState) (channelId : Nat) (requestedMarkup : ℚ) :
    RepriceState :=
  match s.channels.find? (fun c => decide (c.id = channelId)) with
  | none => s
  | some channel =>
    let currentMarkup : ℚ := channel.markup.getD 0
    let priceFactor : ℚ := 1 + currentMarkup / 100
    let allProductIds := getAllProductIdsForChannel s channelId
    let batches := chunkList REPRICE_BATCH_SIZE allProductIds
    { s with
      variants :=
        batches.foldl
          (fun vs batch =>
            repriceVariantPricesForProducts batch s.defaultChannelId channelId
              channel.defaultCurrencyCode priceFactor vs)
          s.variants }

/-- Lines 257-273, `readMarkupFromInput`: the update payload's
`customFields.markup` entry.  `absent` is a missing key (`hasOwnProperty`
false), `nullish` a present key holding `null`/`undefined` (read as 0),
`num` a present finite numeric value, `nonFinite` a present value whose
`Number(...)` conversion is not finite (read as 0). -/
inductive MarkupField where
  | absent
  | nullish
  | num (q : ℚ)
  | nonFinite
deriving DecidableEq

structure ChannelUpdateCustomFields where
  markup : MarkupField
deriving DecidableEq

/-- A channel update event payload; `customFields := none` models a payload
without an object-valued `customFields` entry. -/
structure ChannelUpdateInput where
  customFields : Option ChannelUpdateCustomFields
deriving DecidableEq

/-- Lines 257-273: return `undefined` unless the payload is an object with
an object `customFields` owning a `markup` key; then parse the value. -/
def readMarkupFromInput (input : Option ChannelUpdateInput) : Option ℚ :=
  match input with
  | none => none
  | some i =>
    match i.customFields with
    | none => none
    | some cf =>
      match cf.markup with
      | .absent => none
      | .nullish => some 0
      | .num q => some q
      | .nonFinite => some 0

structure RepriceJobData where
  channelId : Nat
  requestedMarkup : ℚ
deriving DecidableEq

/-- Lines 56-79, `handleChannelUpdated`: enqueue a reprice job only when the
update payload carries a markup value and `Number(event.entity.id)` is a
finite positive number (`entityIdNum = none` models a non-numeric id).
The returned value is the enqueued job payload, `none` when no job is
enqueued. -/
def handleChannelUpdated (input : Option ChannelUpdateInput) (entityIdNum : Option Int) :
    Option RepriceJobData :=
  match readMarkupFromInput input with
  | none => none
  | some markup =>
    match entityIdNum with
    | none => none
    | some channelId =>
      if channelId ≤ 0 then none
      else some ⟨channelId.toNat, markup⟩

/-! ## Observation helpers used by the theorems -/

/-- The price of the first price row of `v` scoped to channel `cid`. -/
def priceInChannel (v : VariantRec) (cid : Nat) : Option Int :=
  (v.prices.find? (fun p => decide (p.channelId = cid))).map PriceRow.price

/-- The currency of the first price row of `v` scoped to channel `cid`. -/
def currencyInChannel (v : VariantRec) (cid : Nat) : Option String :=
  (v.prices.find? (fun p => decide (p.channelId = cid))).map PriceRow.currencyCode

/-- The default-channel base row of a variant, as read by the reprice job. -/
def basePriceRow (s : RepriceState) (v : VariantRec) : Option PriceRow :=
  v.prices.find? (fun p => decide (p.channelId = s.defaultChannelId))

/-! ## Lemmas: batching structure of the reprice job -/

theorem insertAsc_perm (x : Nat) (l : List Nat) : (insertAsc x l).Perm (x :: l) := by
  induction l with
  | nil => exact List.Perm.refl _
  | cons y ys ih =>
    by_cases h : x ≤ y
    · simp [insertAsc, h]
    · simp only [insertAsc, if_neg h]
      exact ((ih.cons y).trans (List.Perm.swap x y ys))

theorem sortAsc_perm (l : List Nat) : (sortAsc l).Perm l := by
  induction l with
  | nil => exact List.Perm.refl _
  | cons x xs ih =>
    simp only [sortAsc, List.foldr_cons]
    exact (insertAsc_perm x (sortAsc xs)).trans (ih.cons x)

theorem chunkListFuel_flatten (n : Nat) (fuel : Nat) (l : List Nat) (h : l.length ≤ fuel) :
    (chunkListFuel n fuel l).flatten = l := by
  induction fuel generalizing l with
  | zero =>
    cases l with
    | nil => rfl
    | cons x xs => simp at h
  | succ fuel ih =>
    cases l with
    | nil => rfl
    | cons x xs =>
      simp only [chunkListFuel, List.flatten_cons, List.cons_append]
      have hlen : (xs.drop (n - 1)).length ≤ fuel := by
        simp only [List.length_drop]
        simp only [List.length_cons] at h
        omega
      rw [ih _ hlen, List.take_append_drop]

theorem chunkList_flatten (n : Nat) (l : List Nat) : (chunkList n l).flatten = l :=
  chunkListFuel_flatten n l.length l le_rfl

theorem countP_contains_le_count_flatten (pid : Nat) (batches : List (List Nat)) :
    batches.countP (fun b => decide (pid ∈ b)) ≤ batches.flatten.count pid := by
  induction batches with
  | nil => simp
  | cons b bs ih =>
    rw [List.countP_cons, List.flatten_cons, List.count_append]
    by_cases h : pid ∈ b
    · have hb : 1 ≤ b.count pid := List.count_pos_iff.mpr h
      simp only [decide_eq_true_eq, h, if_true]
      omega
    · simp only [decide_eq_true_eq, h, if_false]
      omega

theorem countP_contains_eq_one (n : Nat) (l : List Nat) (pid : Nat)
    (hl : l.Nodup) (hmem : pid ∈ l) :
    (chunkList n l).countP (fun b => decide (pid ∈ b)) = 1 := by
  have hle : (chunkList n l).countP (fun b => decide (pid ∈ b)) ≤ 1 := by
    have h1 := countP_contains_le_count_flatten pid (chunkList n l)
    rw [chunkList_flatten] at h1
    exact h1.trans (List.nodup_iff_count_le_one.mp hl pid)
  have hge : 0 < (chunkList n l).countP (fun b => decide (pid ∈ b)) := by
    apply List.countP_pos_iff.mpr
    have : pid ∈ (chunkList n l).flatten := by rw [chunkList_flatten]; exact hmem
    obtain ⟨b, hb, hpb⟩ := List.mem_flatten.mp this
    exact ⟨b, hb, by simpa using hpb⟩
  omega

theorem countP_contains_eq_zero (n : Nat) (l : List Nat) (pid : Nat)
    (hmem : pid ∉ l) :
    (chunkList n l).countP (fun b => decide (pid ∈ b)) = 0 := by
  apply List.countP_eq_zero.mpr
  intro b hb
  simp only [decide_eq_true_eq]
  intro hpb
  exact hmem (by rw [← chunkList_flatten n l]; exact List.mem_flatten.mpr ⟨b, hb, hpb⟩)

theorem repriceStep_productId (d t : Nat) (cur : String) (pf : ℚ) (v : VariantRec) :
    (repriceStep d t cur pf v).productId = v.productId := by
  unfold repriceStep
  split
  · rfl
  · dsimp only
    split <;> rfl

/-- Folding the per-batch reprice over a list of batches applies the
per-variant step to each variant once per batch containing its product. -/
theorem foldl_batches_eq_map (d t : Nat) (cur : String) (pf : ℚ)
    (batches : List (List Nat)) (vs : List VariantRec) :
    batches.foldl (fun acc b => repriceVariantPricesForProducts b d t cur pf acc) vs
      = vs.map (fun v =>
          (repriceStep d t cur pf)^[batches.countP (fun b => decide (v.productId ∈ b))] v) := by
  induction batches generalizing vs with
  | nil => simp
  | cons b bs ih =>
    rw [List.foldl_cons, ih]
    unfold repriceVariantPricesForProducts
    rw [List.map_map]
    apply List.map_congr_left
    intro v _
    simp only [Function.comp_apply, List.countP_cons]
    by_cases hb : v.productId ∈ b
    · simp only [if_pos hb, repriceStep_productId, decide_eq_true_eq, hb, if_true]
      exact (Function.iterate_succ_apply _ _ _).symm
    · simp [hb]

/-! ## Lemmas: the per-variant reprice step -/

theorem updateFirst_length (p : α → Bool) (g : α → α) (l : List α) :
    (updateFirst p g l).length = l.length := by
  induction l with
  | nil => rfl
  | cons x xs ih =>
    unfold updateFirst
    split <;> simp [ih]

theorem find?_updateFirst_self (p : α → Bool) (g : α → α) (l : List α) (a : α)
    (h : l.find? p = some a) (hg : p (g a) = true) :
    (updateFirst p g l).find? p = some (g a) := by
  induction l with
  | nil => simp at h
  | cons x xs ih =>
    by_cases hx : p x
    · rw [List.find?_cons_of_pos _ hx] at h
      cases h
      simp [updateFirst, hx, List.find?_cons_of_pos _ hg]
    · rw [List.find?_cons_of_neg _ hx] at h
      simp only [updateFirst, if_neg hx]
      rw [List.find?_cons_of_neg _ hx]
      exact ih h

theorem find?_updateFirst_of_disj (p q : α → Bool) (g : α → α) (l : List α)
    (hpq : ∀ x, q x = true → (p x = false ∧ p (g x) = false)) :
    (updateFirst q g l).find? p = l.find? p := by
  induction l with
  | nil => rfl
  | cons x xs ih =>
    by_cases hx : q x
    · obtain ⟨h1, h2⟩ := hpq x hx
      simp only [updateFirst, if_pos hx]
      rw [List.find?_cons_of_neg _ (by simp [h2]), List.find?_cons_of_neg _ (by simp [h1])]
    · simp only [updateFirst, if_neg hx]
      by_cases hp : p x
      · rw [List.find?_cons_of_pos _ hp, List.find?_cons_of_pos _ hp]
      · rw [List.find?_cons_of_neg _ hp, List.find?_cons_of_neg _ hp]
        exact ih

theorem filter_updateFirst_of_disj (p q : α → Bool) (g : α → α) (l : List α)
    (hpq : ∀ x, q x = true → (p x = false ∧ p (g x) = false)) :
    (updateFirst q g l).filter p = l.filter p := by
  induction l with
  | nil => rfl
  | cons x xs ih =>
    by_cases hx : q x
    · obtain ⟨h1, h2⟩ := hpq x hx
      simp [updateFirst, hx, List.filter_cons, h1, h2]
    · simp only [updateFirst, if_neg hx, List.filter_cons]
      split <;> simp [ih]

theorem updateFirst_fixpoint (p : α → Bool) (g : α → α) (l : List α) (a : α)
    (h : l.find? p = some a) (hg : g a = a) :
    updateFirst p g l = l := by
  induction l with
  | nil => rfl
  | cons x xs ih =>
    by_cases hx : p x
    · rw [List.find?_cons_of_pos _ hx] at h
      cases h
      simp [updateFirst, hx, hg]
    · rw [List.find?_cons_of_neg _ hx] at h
      simp [updateFirst, hx, ih h]

theorem find?_append_none {p : α → Bool} {l₁ l₂ : List α} (h : l₁.find? p = none) :
    (l₁ ++ l₂).find? p = l₂.find? p := by
  rw [List.find?_append, h, Option.none_or]

theorem find?_append_some {p : α → Bool} {l₁ l₂ : List α} {a : α} (h : l₁.find? p = some a) :
    (l₁ ++ l₂).find? p = some a := by
  rw [List.find?_append, h]
  rfl

/-- If the variant has a default-channel base row, the step leaves a
target-channel row holding the rounded marked-up base price and the target
currency. -/
theorem repriceStep_target_row (d t : Nat) (cur : String) (pf : ℚ) (v : VariantRec)
    (base : PriceRow)
    (hbase : v.prices.find? (fun p => decide (p.channelId = d)) = some base) :
    (repriceStep d t cur pf v).prices.find? (fun p => decide (p.channelId = t))
      = some ⟨t, cur, jsRound ((base.price : ℚ) * pf)⟩ := by
  unfold repriceStep
  rw [hbase]
  dsimp only
  by_cases htgt : (v.prices.find? (fun p => decide (p.channelId = t))).isSome
  · rw [if_pos htgt]
    obtain ⟨a, ha⟩ := Option.isSome_iff_exists.mp htgt
    have hat : a.channelId = t := by
      have := List.find?_some ha
      simpa using this
    have := find?_updateFirst_self (fun p => decide (p.channelId = t))
      (fun p => { p with price := jsRound ((base.price : ℚ) * pf), currencyCode := cur })
      v.prices a ha (by simpa using hat)
    simpa [hat] using this
  · rw [if_neg htgt]
    have hnone : v.prices.find? (fun p => decide (p.channelId = t)) = none :=
      Option.not_isSome_iff_eq_none.mp htgt
    simp [find?_append_none hnone]

/-- With a base row present, the step preserves the number of price rows
when a target row already exists, and appends exactly the new target row
otherwise. -/
theorem repriceStep_prices_shape (d t : Nat) (cur : String) (pf : ℚ) (v : VariantRec)
    (base : PriceRow)
    (hbase : v.prices.find? (fun p => decide (p.channelId = d)) = some base) :
    ((v.prices.find? (fun p => decide (p.channelId = t))).isSome = true →
        (repriceStep d t cur pf v).prices.length = v.prices.length) ∧
    (v.prices.find? (fun p => decide (p.channelId = t)) = none →
        (repriceStep d t cur pf v).prices
          = v.prices ++ [⟨t, cur, jsRound ((base.price : ℚ) * pf)⟩]) := by
  constructor
  · intro hsome
    unfold repriceStep
    rw [hbase]
    dsimp only
    rw [if_pos hsome]
    exact updateFirst_length _ _ _
  · intro hnone
    unfold repriceStep
    rw [hbase]
    dsimp only
    rw [if_neg (by simp [hnone])]

/-- A variant without a default-channel base row is skipped entirely. -/
theorem repriceStep_no_base (d t : Nat) (cur : String) (pf : ℚ) (v : VariantRec)
    (h : v.prices.find? (fun p => decide (p.channelId = d)) = none) :
    repriceStep d t cur pf v = v := by
  unfold repriceStep
  rw [h]

/-- When the target channel is not the default channel, the step does not
touch the first default-channel row the next run would read. -/
theorem repriceStep_preserves_base_find (d t : Nat) (cur : String) (pf : ℚ)
    (v : VariantRec) (hne : t ≠ d) :
    (repriceStep d t cur pf v).prices.find? (fun p => decide (p.channelId = d))
      = v.prices.find? (fun p => decide (p.channelId = d)) := by
  cases hb : v.prices.find? (fun p => decide (p.channelId = d)) with
  | none =>
    rw [repriceStep_no_base d t cur pf v hb]
    exact hb
  | some base =>
    unfold repriceStep
    rw [hb]
    dsimp only
    split
    · dsimp only
      rw [find?_updateFirst_of_disj]
      · exact hb
      · intro x hx
        have hxt : x.channelId = t := by simpa using hx
        constructor
        · simp [hxt, hne]
        · simp [hxt, hne]
    · dsimp only
      rw [find?_append_some hb]

/-- When the target channel is not the default channel, the list of
default-channel rows (values and order) is unchanged by the step. -/
theorem repriceStep_preserves_default_rows (d t : Nat) (cur : String) (pf : ℚ)
    (v : VariantRec) (hne : t ≠ d) :
    (repriceStep d t cur pf v).prices.filter (fun p => decide (p.channelId = d))
      = v.prices.filter (fun p => decide (p.channelId = d)) := by
  cases hb : v.prices.find? (fun p => decide (p.channelId = d)) with
  | none => rw [repriceStep_no_base d t cur pf v hb]
  | some base =>
    unfold repriceStep
    rw [hb]
    dsimp only
    split
    · dsimp only
      rw [filter_updateFirst_of_disj]
      intro x hx
      have hxt : x.channelId = t := by simpa using hx
      constructor
      · simp [hxt, hne]
      · simp [hxt, hne]
    · dsimp only
      simp [List.filter_append, hne]

/-- Away from the default channel the per-variant step is idempotent:
rerunning it recomputes the same target price from the untouched base row
and rewrites the target row with identical values. -/
theorem repriceStep_idem (d t : Nat) (cur : String) (pf : ℚ) (v : VariantRec)
    (hne : t ≠ d) :
    repriceStep d t cur pf (repriceStep d t cur pf v) = repriceStep d t cur pf v := by
  cases hb : v.prices.find? (fun p => decide (p.channelId = d)) with
  | none => rw [repriceStep_no_base d t cur pf v hb, repriceStep_no_base d t cur pf v hb]
  | some base =>
    set w := repriceStep d t cur pf v with hw
    have hb' : w.prices.find? (fun p => decide (p.channelId = d)) = some base := by
      rw [hw, repriceStep_preserves_base_find d t cur pf v hne, hb]
    have htgt : w.prices.find? (fun p => decide (p.channelId = t))
        = some ⟨t, cur, jsRound ((base.price : ℚ) * pf)⟩ := by
      rw [hw]
      exact repriceStep_target_row d t cur pf v base hb
    have hfix : updateFirst (fun p => decide (p.channelId = t))
        (fun p => { p with price := jsRound ((base.price : ℚ) * pf), currencyCode := cur })
        w.prices = w.prices :=
      updateFirst_fixpoint _ _ _ _ htgt rfl
    unfold repriceStep
    rw [hb']
    dsimp only
    rw [if_pos (by rw [htgt]; rfl)]
    rw [hfix]

/-! ## Lemmas: the reprice job as a per-variant map -/

theorem getD_map_of_lt (f : α → β) (l : List α) (i : Nat) (d : α) (d' : β)
    (hi : i < l.length) :
    (l.map f).getD i d' = f (l.getD i d) := by
  rw [List.getD_eq_getElem?_getD, List.getD_eq_getElem?_getD, List.getElem?_map,
    List.getElem?_eq_getElem hi]
  rfl

theorem eligible_nodup (s : RepriceState) (channelId : Nat)
    (hnodup : (s.products.map ProductRec.id).Nodup) :
    (getAllProductIdsForChannel s channelId).Nodup := by
  unfold getAllProductIdsForChannel
  apply List.Nodup.filter
  apply (sortAsc_perm _).symm.nodup
  exact List.Nodup.sublist
    ((List.filter_sublist s.products).map ProductRec.id) hnodup

theorem mem_eligible_of_assigned (s : RepriceState) (channelId : Nat) (p : ProductRec)
    (hp : p ∈ s.products) (hch : channelId ∈ p.channelIds) (hpos : 0 < p.id) :
    p.id ∈ getAllProductIdsForChannel s channelId := by
  unfold getAllProductIdsForChannel
  rw [List.mem_filter]
  constructor
  · apply (sortAsc_perm _).symm.subset
    exact List.mem_map.mpr ⟨p, List.mem_filter.mpr ⟨hp, by simpa using hch⟩, rfl⟩
  · simpa using hpos

theorem processRepriceJob_channels (s : RepriceState) (cid : Nat) (rm : ℚ) :
    (processRepriceJob s cid rm).channels = s.channels := by
  unfold processRepriceJob
  split <;> rfl

theorem processRepriceJob_defaultChannelId (s : RepriceState) (cid : Nat) (rm : ℚ) :
    (processRepriceJob s cid rm).defaultChannelId = s.defaultChannelId := by
  unfold processRepriceJob
  split <;> rfl

theorem processRepriceJob_products (s : RepriceState) (cid : Nat) (rm : ℚ) :
    (processRepriceJob s cid rm).products = s.products := by
  unfold processRepriceJob
  split <;> rfl

theorem getAllProductIds_job_invariant (s : RepriceState) (cid : Nat) (rm : ℚ) (cid2 : Nat) :
    getAllProductIdsForChannel (processRepriceJob s cid rm) cid2
      = getAllProductIdsForChannel s cid2 := by
  unfold getAllProductIdsForChannel
  rw [processRepriceJob_products]

/-- The job applies the per-variant step to each variant once per batch
containing its product. -/
theorem processRepriceJob_variants_iter (s : RepriceState) (channelId : Nat) (rm : ℚ)
    (c : ChannelRec)
    (hc : s.channels.find? (fun ch => decide (ch.id = channelId)) = some c) :
    (processRepriceJob s channelId rm).variants
      = s.variants.map (fun v =>
          (repriceStep s.defaultChannelId channelId c.defaultCurrencyCode
              (1 + c.markup.getD 0 / 100))^[
            (chunkList REPRICE_BATCH_SIZE (getAllProductIdsForChannel s channelId)).countP
              (fun b => decide (v.productId ∈ b))] v) := by
  unfold processRepriceJob
  rw [hc]
  dsimp only
  rw [foldl_batches_eq_map]

/-- With distinct product ids, each assigned variant is repriced exactly
once and each unassigned variant not at all. -/
theorem processRepriceJob_variants_map (s : RepriceState) (channelId : Nat) (rm : ℚ)
    (c : ChannelRec)
    (hc : s.channels.find? (fun ch => decide (ch.id = channelId)) = some c)
    (hnodup : (s.products.map ProductRec.id).Nodup) :
    (processRepriceJob s channelId rm).variants
      = s.variants.map (fun v =>
          if v.productId ∈ getAllProductIdsForChannel s channelId then
            repriceStep s.defaultChannelId channelId c.defaultCurrencyCode
              (1 + c.markup.getD 0 / 100) v
          else v) := by
  rw [processRepriceJob_variants_iter s channelId rm c hc]
  apply List.map_congr_left
  intro v _
  by_cases hmem : v.productId ∈ getAllProductIdsForChannel s channelId
  · rw [countP_contains_eq_one REPRICE_BATCH_SIZE _ _ (eligible_nodup s channelId hnodup) hmem]
    simp [hmem]
  · rw [countP_contains_eq_zero REPRICE_BATCH_SIZE _ _ hmem]
    simp [hmem]

theorem iterate_idem_eq {α : Type _} (f : α → α) (hf : ∀ x, f (f x) = f x) (k : Nat) (v : α) :
    f^[k + 1] v = f v := by
  induction k generalizing v with
  | zero => rfl
  | succ k ih =>
    have h1 : f^[k + 1 + 1] v = f^[k + 1] (f^[1] v) := Function.iterate_add_apply f (k + 1) 1 v
    rw [h1, Function.iterate_one, ih, hf]

theorem repriceStep_iter_productId (d t : Nat) (cur : String) (pf : ℚ) (k : Nat)
    (v : VariantRec) :
    ((repriceStep d t cur pf)^[k] v).productId = v.productId := by
  induction k generalizing v with
  | zero => rfl
  | succ k ih => rw [Function.iterate_succ_apply, ih, repriceStep_productId]

theorem repriceStep_iter_idem (d t : Nat) (cur : String) (pf : ℚ) (hne : t ≠ d) (k : Nat)
    (v : VariantRec) :
    (repriceStep d t cur pf)^[k] ((repriceStep d t cur pf)^[k] v)
      = (repriceStep d t cur pf)^[k] v := by
  cases k with
  | zero => rfl
  | succ k =>
    rw [iterate_idem_eq _ (fun x => repriceStep_idem d t cur pf x hne) k,
      iterate_idem_eq _ (fun x => repriceStep_idem d t cur pf x hne) k]
    exact repriceStep_idem d t cur pf v hne

theorem repriceStep_iter_no_base (d t : Nat) (cur : String) (pf : ℚ) (v : VariantRec)
    (h : v.prices.find? (fun p => decide (p.channelId = d)) = none) (k : Nat) :
    (repriceStep d t cur pf)^[k] v = v :=
  Function.iterate_fixed (repriceStep_no_base d t cur pf v h) k

theorem repriceStep_iter_preserves_default_rows (d t : Nat) (cur : String) (pf : ℚ)
    (hne : t ≠ d) (k : Nat) (v : VariantRec) :
    ((repriceStep d t cur pf)^[k] v).prices.filter (fun p => decide (p.channelId = d))
      = v.prices.filter (fun p => decide (p.channelId = d)) := by
  induction k generalizing v with
  | zero => rfl
  | succ k ih =>
    rw [Function.iterate_succ_apply, ih, repriceStep_preserves_default_rows d t cur pf v hne]

theorem repriceState_eq (a b : RepriceState)
    (h1 : a.channels = b.channels) (h2 : a.defaultChannelId = b.defaultChannelId)
    (h3 : a.products = b.products) (h4 : a.variants = b.variants) : a = b := by
  cases a
  cases b
  simp_all

/-! ## Claim theorems: repricing engine -/

/-- C1.  For every reprice job, and for every variant (of a product assigned
to the target channel, with a positive id as required by the id filter of
`getAllProductIdsForChannel`) that has a default-channel price row with
minor-unit price `P = base.price`, the variant's target-channel price after
the job is `round(P * (1 + M/100))` where `M` is the channel's persisted
markup custom field (0 when absent) — independent of the `requestedMarkup`
in the job payload (last conjunct) — with the existing target-channel row
updated in place (same row count, currency corrected to the channel's
default currency) when present and a new row appended otherwise. -/
theorem reprice_job_target_price (s : RepriceState) (channelId : Nat) (rm rm2 : ℚ)
    (c : ChannelRec) (i : Nat) (base : PriceRow)
    (hc : s.channels.find? (fun ch => decide (ch.id = channelId)) = some c)
    (hnodup : (s.products.map ProductRec.id).Nodup)
    (hassigned : ∃ p ∈ s.products,
      p.id = (s.variants.getD i dummyVariant).productId ∧ channelId ∈ p.channelIds ∧ 0 < p.id)
    (hi : i < s.variants.length)
    (hbase : basePriceRow s (s.variants.getD i dummyVariant) = some base) :
    priceInChannel ((processRepriceJob s channelId rm).variants.getD i dummyVariant) channelId
        = some (jsRound ((base.price : ℚ) * (1 + c.markup.getD 0 / 100))) ∧
    currencyInChannel ((processRepriceJob s channelId rm).variants.getD i dummyVariant) channelId
        = some c.defaultCurrencyCode ∧
    (((s.variants.getD i dummyVariant).prices.find?
        (fun p => decide (p.channelId = channelId))).isSome = true →
      ((processRepriceJob s channelId rm).variants.getD i dummyVariant).prices.length
        = (s.variants.getD i dummyVariant).prices.length) ∧
    ((s.variants.getD i dummyVariant).prices.find?
        (fun p => decide (p.channelId = channelId)) = none →
      ((processRepriceJob s channelId rm).variants.getD i dummyVariant).prices
        = (s.variants.getD i dummyVariant).prices
            ++ [⟨channelId, c.defaultCurrencyCode,
                  jsRound ((base.price : ℚ) * (1 + c.markup.getD 0 / 100))⟩]) ∧
    processRepriceJob s channelId rm2 = processRepriceJob s channelId rm := by
  obtain ⟨p, hp, hpid, hch, hpos⟩ := hassigned
  have hmem : (s.variants.getD i dummyVariant).productId
      ∈ getAllProductIdsForChannel s channelId := by
    rw [← hpid]
    exact mem_eligible_of_assigned s channelId p hp hch hpos
  have hbase' : (s.variants.getD i dummyVariant).prices.find?
      (fun pr => decide (pr.channelId = s.defaultChannelId)) = some base := hbase
  have hvd : (processRepriceJob s channelId rm).variants.getD i dummyVariant
      = repriceStep s.defaultChannelId channelId c.defaultCurrencyCode
          (1 + c.markup.getD 0 / 100) (s.variants.getD i dummyVariant) := by
    rw [processRepriceJob_variants_map s channelId rm c hc hnodup,
      getD_map_of_lt _ _ _ dummyVariant _ hi]
    rw [if_pos hmem]
  refine ⟨?_, ?_, ?_, ?_, rfl⟩
  · unfold priceInChannel
    rw [hvd, repriceStep_target_row _ _ _ _ _ base hbase']
    rfl
  · unfold currencyInChannel
    rw [hvd, repriceStep_target_row _ _ _ _ _ base hbase']
    rfl
  · intro hsome
    rw [hvd]
    exact (repriceStep_prices_shape _ _ _ _ _ base hbase').1 hsome
  · intro hnone
    rw [hvd]
    exact (repriceStep_prices_shape _ _ _ _ _ base hbase').2 hnone

def repriceWitnessState : RepriceState :=
  { channels := [⟨1, "default", none, "USD"⟩, ⟨2, "shop", some 33, "EUR"⟩]
    defaultChannelId := 1
    products := [⟨5, [1, 2]⟩]
    variants := [⟨10, 5, [⟨1, "USD", 999⟩]⟩] }

theorem reprice_job_target_price_witness :
    priceInChannel ((processRepriceJob repriceWitnessState 2 0).variants.getD 0 dummyVariant) 2
      = some 1329 := by
  have h := (reprice_job_target_price repriceWitnessState 2 0 7 ⟨2, "shop", some 33, "EUR"⟩ 0
    ⟨1, "USD", 999⟩ rfl (by simp [repriceWitnessState])
    ⟨⟨5, [1, 2]⟩, by simp [repriceWitnessState], rfl, by simp, by simp⟩
    (by simp [repriceWitnessState]) rfl).1
  rw [h]
  norm_num [jsRound]

def defaultChannelRepriceState : RepriceState :=
  { channels := [⟨1, "default", some 10, "USD"⟩]
    defaultChannelId := 1
    products := [⟨5, [1]⟩]
    variants := [⟨10, 5, [⟨1, "USD", 1000⟩]⟩] }

/-- C3 counterexample.  When the reprice target is the default channel
itself (reachable: the markup custom field of the default channel is
edited), the job reads the base price from the row it just overwrote, so a
second run with the same persisted markup (10%) compounds 1000 → 1100 →
1210 instead of being idempotent. -/
theorem reprice_default_channel_compounds :
    priceInChannel ((processRepriceJob defaultChannelRepriceState 1 10).variants.getD 0
        dummyVariant) 1 = some 1100 ∧
    priceInChannel
        ((processRepriceJob (processRepriceJob defaultChannelRepriceState 1 10) 1 10).variants.getD
          0 dummyVariant) 1 = some 1210 ∧
    processRepriceJob (processRepriceJob defaultChannelRepriceState 1 10) 1 10
      ≠ processRepriceJob defaultChannelRepriceState 1 10 := by
  refine ⟨?_, ?_, ?_⟩ <;>
    norm_num [defaultChannelRepriceState, processRepriceJob, getAllProductIdsForChannel,
      sortAsc, insertAsc, chunkList, chunkListFuel, repriceVariantPricesForProducts,
      repriceStep, updateFirst, jsRound, priceInChannel, List.find?, REPRICE_BATCH_SIZE,
      RepriceState.mk.injEq, VariantRec.mk.injEq, PriceRow.mk.injEq]

/-- C3 (amended: the target channel is not the default channel).  Rerunning
the reprice job under the same persisted markup is idempotent: each run
recomputes every channel price from the untouched default-channel base
price, so a second run (with any requested markup in the payload) leaves
the state of the first run unchanged. -/
theorem reprice_idempotent_nondefault (s : RepriceState) (channelId : Nat) (rm rm2 : ℚ)
    (hne : channelId ≠ s.defaultChannelId) :
    processRepriceJob (processRepriceJob s channelId rm) channelId rm2
      = processRepriceJob s channelId rm := by
  cases hc : s.channels.find? (fun ch => decide (ch.id = channelId)) with
  | none =>
    have h1 : processRepriceJob s channelId rm = s := by
      unfold processRepriceJob
      rw [hc]
    rw [h1]
    unfold processRepriceJob
    rw [hc]
  | some c =>
    have hc2 : (processRepriceJob s channelId rm).channels.find?
        (fun ch => decide (ch.id = channelId)) = some c := by
      rw [processRepriceJob_channels, hc]
    apply repriceState_eq
    · rw [processRepriceJob_channels, processRepriceJob_channels]
    · rw [processRepriceJob_defaultChannelId, processRepriceJob_defaultChannelId]
    · rw [processRepriceJob_products, processRepriceJob_products]
    · rw [processRepriceJob_variants_iter _ channelId rm2 c hc2]
      simp only [processRepriceJob_defaultChannelId, getAllProductIds_job_invariant]
      rw [processRepriceJob_variants_iter s channelId rm c hc, List.map_map]
      apply List.map_congr_left
      intro v _
      simp only [Function.comp_apply, repriceStep_iter_productId]
      exact repriceStep_iter_idem s.defaultChannelId channelId c.defaultCurrencyCode
        (1 + c.markup.getD 0 / 100) hne _ v

theorem reprice_idempotent_nondefault_witness :
    processRepriceJob (processRepriceJob repriceWitnessState 2 5) 2 7
      = processRepriceJob repriceWitnessState 2 5 :=
  reprice_idempotent_nondefault repriceWitnessState 2 5 7 (by decide)

/-- C10.  A reprice job targeting a non-default channel keeps the variant
list length, leaves every variant's default-channel price rows exactly as
they were, and leaves a variant with no default-channel price row entirely
unchanged (no target-channel row is inserted or updated for it). -/
theorem reprice_frame_default_rows (s : RepriceState) (channelId : Nat) (rm : ℚ) (i : Nat)
    (hne : channelId ≠ s.defaultChannelId) :
    (processRepriceJob s channelId rm).variants.length = s.variants.length ∧
    ((processRepriceJob s channelId rm).variants.getD i dummyVariant).prices.filter
        (fun p => decide (p.channelId = s.defaultChannelId))
      = ((s.variants.getD i dummyVariant).prices.filter
          (fun p => decide (p.channelId = s.defaultChannelId))) ∧
    (basePriceRow s (s.variants.getD i dummyVariant) = none →
      (processRepriceJob s channelId rm).variants.getD i dummyVariant
        = s.variants.getD i dummyVariant) := by
  cases hc : s.channels.find? (fun ch => decide (ch.id = channelId)) with
  | none =>
    have h1 : processRepriceJob s channelId rm = s := by
      unfold processRepriceJob
      rw [hc]
    rw [h1]
    exact ⟨rfl, rfl, fun _ => rfl⟩
  | some c =>
    have hvars := processRepriceJob_variants_iter s channelId rm c hc
    by_cases hi : i < s.variants.length
    · refine ⟨by rw [hvars]; exact List.length_map _ _, ?_, ?_⟩
      · rw [hvars, getD_map_of_lt _ _ _ dummyVariant _ hi]
        exact repriceStep_iter_preserves_default_rows _ _ _ _ hne _ _
      · intro hnobase
        rw [hvars, getD_map_of_lt _ _ _ dummyVariant _ hi]
        exact repriceStep_iter_no_base _ _ _ _ _ hnobase _
    · have hlen : (processRepriceJob s channelId rm).variants.length = s.variants.length := by
        rw [hvars]
        exact List.length_map _ _
      have h2 : (processRepriceJob s channelId rm).variants.getD i dummyVariant
          = dummyVariant :=
        List.getD_eq_default _ _ (by omega)
      have h3 : s.variants.getD i dummyVariant = dummyVariant :=
        List.getD_eq_default _ _ (by omega)
      rw [h2, h3]
      exact ⟨hlen, rfl, fun _ => rfl⟩

theorem reprice_frame_default_rows_witness :
    ((processRepriceJob repriceWitnessState 2 0).variants.getD 0 dummyVariant).prices.filter
        (fun p => decide (p.channelId = 1))
      = ((repriceWitnessState.variants.getD 0 dummyVariant).prices.filter
          (fun p => decide (p.channelId = 1))) :=
  (reprice_frame_default_rows repriceWitnessState 2 0 0 (by decide)).2.1

/-- The update payload owns a `markup` key under an object `customFields`. -/
def hasMarkupKey (input : Option ChannelUpdateInput) : Prop :=
  ∃ i cf, input = some i ∧ i.customFields = some cf ∧ cf.markup ≠ MarkupField.absent

instance (input : Option ChannelUpdateInput) : Decidable (hasMarkupKey input) := by
  unfold hasMarkupKey
  cases input with
  | none => exact isFalse (by rintro ⟨i, cf, h, _⟩; cases h)
  | some i =>
    cases hcf : i.customFields with
    | none =>
      exact isFalse (by
        rintro ⟨j, cf, hj, hc, _⟩
        cases hj
        rw [hcf] at hc
        cases hc)
    | some cf =>
      by_cases hm : cf.markup = MarkupField.absent
      · exact isFalse (by
          rintro ⟨j, cf', hj, hc, hne⟩
          cases hj
          rw [hcf] at hc
          cases hc
          exact hne hm)
      · exact isTrue ⟨i, cf, rfl, hcf, hm⟩

/-- C9.  For a channel `updated` event whose entity id parses to a finite
positive number, a reprice job is enqueued if and only if the update
payload has a `markup` key under `customFields`.  The handler never
consults the channel's stored markup (no `RepriceState` argument exists),
so a payload without the key enqueues nothing regardless of the stored
value. -/
theorem reprice_enqueue_iff_markup_key (input : Option ChannelUpdateInput) (cid : Int)
    (hpos : 0 < cid) :
    (handleChannelUpdated input (some cid)).isSome = true ↔ hasMarkupKey input := by
  have hle : ¬ cid ≤ 0 := by omega
  cases input with
  | none => simp [handleChannelUpdated, readMarkupFromInput, hasMarkupKey]
  | some i =>
    cases hcf : i.customFields with
    | none => simp [handleChannelUpdated, readMarkupFromInput, hasMarkupKey, hcf]
    | some cf =>
      cases hm : cf.markup with
      | absent => simp [handleChannelUpdated, readMarkupFromInput, hasMarkupKey, hcf, hm]
      | nullish =>
        simp [handleChannelUpdated, readMarkupFromInput, hasMarkupKey, hcf, hm, if_neg hle]
      | num q =>
        simp [handleChannelUpdated, readMarkupFromInput, hasMarkupKey, hcf, hm, if_neg hle]
      | nonFinite =>
        simp [handleChannelUpdated, readMarkupFromInput, hasMarkupKey, hcf, hm, if_neg hle]

theorem reprice_enqueue_iff_markup_key_witness :
    ((handleChannelUpdated (some ⟨some ⟨MarkupField.num 25⟩⟩) (some 4)).isSome = true
        ↔ hasMarkupKey (some ⟨some ⟨MarkupField.num 25⟩⟩)) ∧
    (handleChannelUpdated (some ⟨none⟩) (some 4)).isSome = false :=
  ⟨reprice_enqueue_iff_markup_key (some ⟨some ⟨MarkupField.num 25⟩⟩) 4 (by decide),
   by decide⟩

/-! ## Mapping store (product-mapping.service.ts) -/

structure MappingRec where
  vendureProductId : Nat
  integrationId : Nat
  externalProductId : String
  externalSku : String
deriving DecidableEq

/-- Lines 572-583: `findOne` on the (product, integration) key. -/
def getMapping (mappings : List MappingRec) (vendureProductId integrationId : Nat) :
    Option MappingRec :=
  mappings.find? (fun m =>
    decide (m.vendureProductId = vendureProductId) && decide (m.integrationId = integrationId))

/-- Lines 585-610: update the external id (and the SKU when non-empty) of an
existing row, or insert a new row. -/
def saveMapping (mappings : List MappingRec) (vendureProductId integrationId : Nat)
    (externalProductId : String) (externalSku : String) : List MappingRec :=
  match getMapping mappings vendureProductId integrationId with
  | some _ =>
    updateFirst
      (fun m => decide (m.vendureProductId = vendureProductId)
        && decide (m.integrationId = integrationId))
      (fun m =>
        { m with
          externalProductId := externalProductId
          externalSku := if externalSku ≠ "" then externalSku else m.externalSku })
      mappings
  | none =>
    mappings ++ [⟨vendureProductId, integrationId, externalProductId, externalSku⟩]

/-- Lines 612-621: delete every row matching the (product, integration) key. -/
def deleteMapping (mappings : List MappingRec) (vendureProductId integrationId : Nat) :
    List MappingRec :=
  mappings.filter (fun m =>
    !(decide (m.vendureProductId = vendureProductId)
      && decide (m.integrationId = integrationId)))

/-! ## Sync orchestrator (product-event.service.ts) and platform client
(wordpress.service.ts)

Remote HTTP calls are oracle parameters: each carries the uniform
`{success, data?}` result shape `WordPressService` returns (it never throws
to the caller).  The job's observable effects are collected in a trace. -/

/-- The platform client's uniform `{success, data?}` result shape. -/
structure ApiResp (α : Type) where
  success : Bool
  data : Option α
deriving DecidableEq

/-- Remote `type`/`status` of an existing WordPress product. -/
structure RemoteProductInfo where
  type : String
  status : String
deriving DecidableEq

/-- Results the remote platform would return for each call the sync job can
make; `findBySku`/`createProduct` carry the remote product id (`data?.id`). -/
structure SyncOracle where
  findBySku : ApiResp Nat
  getProduct : ApiResp RemoteProductInfo
  deleteProduct : ApiResp Unit
  updateProduct : ApiResp Unit
  createProduct : ApiResp Nat
deriving DecidableEq

inductive JobOutcome where
  | completed
  | threwError
deriving DecidableEq

/-- Observable effects of one sync job run: final mapping rows and which
remote calls were issued. -/
structure SyncTraceRec where
  mappings : List MappingRec
  taxonomyCalled : Bool
  findBySkuCalled : Bool
  getProductCalled : Bool
  deleteCalled : Bool
  updateCalled : Bool
  createCalled : Bool
  variationsSynced : Bool
deriving DecidableEq

def noCalls (m : List MappingRec) : SyncTraceRec :=
  ⟨m, false, false, false, false, false, false, false⟩

/-- A mapped variation as the orchestrator consumes it (`sku` for the SKU
fallback, presence for the variations loop). -/
structure WpVariationLite where
  sku : String
deriving DecidableEq

/-- The mapped product payload fields the orchestrator inspects: `sku` for
the SKU lookup ("" models a falsy/missing sku) and `type`
(simple/variable) for the recreate-on-type-mismatch check. -/
structure WpProductLite where
  sku : String
  type : String
deriving DecidableEq

/-- Result of `productMapper.vendureToWordPress` as consumed by
`syncToWordPress`. -/
structure MappedLite where
  product : WpProductLite
  variations : Option (List WpVariationLite)
deriving DecidableEq

/-- The mapping-derived WordPress id: lines 513-515 (`parseInt` of the
stored external id, then JS truthiness — `NaN` and `0` both read as "no
id"). -/
def parsedWpId (m : MappingRec) : Option Int :=
  match parseIntJs m.externalProductId with
  | none => none
  | some n => if n = 0 then none else some n

/-- Lines 517-530, the `if (!wordpressProductId)` branch: look the product
up by SKU; on `success && data?.id` adopt the discovered id and persist the
mapping before proceeding. -/
def resolveBySku (mappings : List MappingRec) (productId integrationId : Nat)
    (lookupSku : String) (oracle : SyncOracle) : Option Int × List MappingRec × Bool :=
  if oracle.findBySku.success then
    match oracle.findBySku.data with
    | some fid =>
      if fid = 0 then (none, mappings, true)
      else
        (some (fid : Int),
          saveMapping mappings productId integrationId (toString fid) lookupSku, true)
    | none => (none, mappings, true)
  else (none, mappings, true)

/-- Lines 508-530: resolve the WordPress product id from the mapping store,
else fall back to the SKU lookup.  Returns (resolved id, mappings after,
whether findProductBySku was called). -/
def resolveWpId (mappings : List MappingRec) (productId integrationId : Nat)
    (lookupSku : String) (oracle : SyncOracle) : Option Int × List MappingRec × Bool :=
  match getMapping mappings productId integrationId with
  | some m =>
    match parsedWpId m with
    | some n => (some n, mappings, false)
    | none => resolveBySku mappings productId integrationId lookupSku oracle
  | none => resolveBySku mappings productId integrationId lookupSku oracle

/-- Outcome of the type-mismatch check of lines 554-596. -/
inductive RecreateOutcome where
  | keep
  | recreate
  | abortDeleteFailed
deriving DecidableEq

/-- Lines 554-596: fetch the remote product; on a type mismatch delete it
remotely (aborting the job step if that delete fails) so a correctly typed
product is recreated; otherwise keep the existing id.  A failed or empty
`getProduct` falls through keeping the id. -/
def recreateCheck (desiredType : String) (oracle : SyncOracle) : RecreateOutcome :=
  if oracle.getProduct.success then
    match oracle.getProduct.data with
    | some info =>
      if info.type ≠ desiredType then
        if oracle.deleteProduct.success then .recreate else .abortDeleteFailed
      else .keep
    | none => .keep
  else .keep

/-- Lines 613-620 and 645-652: `variations && variations.length > 0` guards
the variation reconciliation loop (whose per-variation failures are logged
and swallowed inside `syncVariationsToWordPress`). -/
def syncVariationsAttempted (variations : Option (List WpVariationLite)) : Bool :=
  match variations with
  | some vs => decide (0 < vs.length)
  | none => false

/-- Lines 624-652, the create path: `createProduct`; on `success &&
data?.id` persist the new mapping and reconcile variations, else log and
return. -/
def createPath (mappings : List MappingRec) (productId integrationId : Nat)
    (lookupSku : String) (variations : Option (List WpVariationLite))
    (taxonomyCalled findCalled getCalled deleteCalled : Bool) (oracle : SyncOracle) :
    JobOutcome × SyncTraceRec :=
  if oracle.createProduct.success then
    match oracle.createProduct.data with
    | some cid =>
      if cid = 0 then
        (.completed,
          ⟨mappings, taxonomyCalled, findCalled, getCalled, deleteCalled, false, true, false⟩)
      else
        (.completed,
          ⟨saveMapping mappings productId integrationId (toString cid) lookupSku,
            taxonomyCalled, findCalled, getCalled, deleteCalled, false, true,
            syncVariationsAttempted variations⟩)
    | none =>
      (.completed,
        ⟨mappings, taxonomyCalled, findCalled, getCalled, deleteCalled, false, true, false⟩)
  else
    (.completed,
      ⟨mappings, taxonomyCalled, findCalled, getCalled, deleteCalled, false, true, false⟩)

/-- Lines 459-660, `syncToWordPress`.  The whole body sits in a
`try { ... } catch { log }`: every branch below, in particular every
platform-client failure result, ends in a normal return
(`JobOutcome.completed`); the catch would swallow an exception, so the
job function never rethrows from this step.  `facetCount` is the length of
the mapped facet values (guarding the taxonomy-mapping call, whose result
only fills `categories`/`tags` fields not modelled here). -/
def syncToWordPress (mappings : List MappingRec) (eventType : String)
    (productId integrationId : Nat) (mapped : MappedLite) (facetCount : Nat)
    (oracle : SyncOracle) : JobOutcome × SyncTraceRec :=
  let lookupSku :=
    if mapped.product.sku ≠ "" then mapped.product.sku
    else
      match mapped.variations.bind List.head? with
      | some v0 => if v0.sku ≠ "" then v0.sku else "vendure-product-" ++ toString productId
      | none => "vendure-product-" ++ toString productId
  let taxonomyCalled := decide (0 < facetCount)
  let r := resolveWpId mappings productId integrationId lookupSku oracle
  let wpId1 := r.1
  let mappings1 := r.2.1
  let findCalled := r.2.2
  if eventType = "deleted" then
      match wpId1 with
      | none =>
        (.completed, ⟨mappings1, taxonomyCalled, findCalled, false, false, false, false, false⟩)
      | some _ =>
        if oracle.deleteProduct.success then
          (.completed,
            ⟨deleteMapping mappings1 productId integrationId, taxonomyCalled, findCalled,
              false, true, false, false, false⟩)
        else
          (.completed,
            ⟨mappings1, taxonomyCalled, findCalled, false, true, false, false, false⟩)
    else
      match wpId1 with
      | some _ =>
        match recreateCheck mapped.product.type oracle with
        | .abortDeleteFailed =>
          (.completed,
            ⟨mappings1, taxonomyCalled, findCalled, true, true, false, false, false⟩)
        | .recreate =>
          createPath (deleteMapping mappings1 productId integrationId) productId integrationId
            lookupSku mapped.variations taxonomyCalled findCalled true true oracle
        | .keep =>
          if oracle.updateProduct.success then
            (.completed,
              ⟨mappings1, taxonomyCalled, findCalled, true, false, true, false,
                syncVariationsAttempted mapped.variations⟩)
          else
            (.completed,
              ⟨mappings1, taxonomyCalled, findCalled, true, false, true, false, false⟩)
      | none =>
        createPath mappings1 productId integrationId lookupSku mapped.variations
          taxonomyCalled findCalled false false oracle

/-- Lines 308-353, `syncDeletedProductToWordPress`: look up the mapping; a
missing mapping (or one whose external id does not parse to a nonzero
number) skips the WordPress delete entirely; otherwise delete remotely and
remove the local mapping only on remote success. -/
def syncDeletedProductToWordPress (mappings : List MappingRec) (productId integrationId : Nat)
    (oracle : SyncOracle) : JobOutcome × SyncTraceRec :=
  let wordpressProductId : Option Int :=
    match getMapping mappings productId integrationId with
    | none => none
    | some m => parsedWpId m
  match wordpressProductId with
  | none => (.completed, noCalls mappings)
  | some _ =>
    if oracle.deleteProduct.success then
      (.completed,
        { noCalls (deleteMapping mappings productId integrationId) with deleteCalled := true })
    else
      (.completed, { noCalls mappings with deleteCalled := true })

/-! ## Integration lookup and trigger-path enqueue (product-event.service.ts,
integration.service.ts) -/

/-- An `Integration` entity row; `enabledFeatures := none` models a stored
value that is not an array (the handler treats it as an empty list). -/
structure IntegrationRec where
  id : Nat
  name : String
  type : String
  enabled : Bool
  enabledFeatures : Option (List String)
deriving DecidableEq

/-- A channel as seen by the orchestrator: its `integrationId` custom field
(`none` models null/undefined; the value 0 is also falsy in the
`!channel?.customFields?.integrationId` guard). -/
structure OrchChannelRec where
  id : Nat
  integrationId : Option Nat
deriving DecidableEq

/-- A product as loaded by `getFullProductForChannel`: the ids of its
channels plus the mapper output (`mapped`) and the number of mapped facet
values, standing for the `productMapper.vendureToWordPress` call. -/
structure OrchProductRec where
  id : Nat
  channelIds : List Nat
  enabled : Bool
  mapped : MappedLite
  facetCount : Nat
deriving DecidableEq

structure OrchestratorState where
  channels : List OrchChannelRec
  integrations : List IntegrationRec
  products : List OrchProductRec
  mappings : List MappingRec
deriving DecidableEq

/-- The enqueued product sync job payload. -/
structure ProductSyncJobData where
  eventType : String
  productId : Nat
  channelId : Nat
  integrationId : Nat
deriving DecidableEq

/-- Lines 388-406, `getIntegrationForChannel`: load the channel, bail out
when its `integrationId` custom field is falsy, else `findOne` the
integration (lines 33-37 of integration.service.ts). -/
def getIntegrationForChannel (st : OrchestratorState) (channelId : Nat) :
    Option IntegrationRec :=
  match st.channels.find? (fun ch => decide (ch.id = channelId)) with
  | none => none
  | some ch =>
    match ch.integrationId with
    | none => none
    | some iid =>
      if iid = 0 then none
      else st.integrations.find? (fun i => decide (i.id = iid))

/-- Lines 182-223, `enqueueSyncForChannel`: skip when no integration is
linked or it is disabled; treat a non-array or empty `enabledFeatures` as
"all features enabled"; otherwise require the `sync_products` feature;
then enqueue the job (returned payload; `none` = nothing enqueued).  Every
trigger handler (product, variant, channel-assignment events) funnels
through this function. -/
def enqueueSyncForChannel (st : OrchestratorState) (eventType : String)
    (productId channelId : Nat) : Option ProductSyncJobData :=
  match getIntegrationForChannel st channelId with
  | none => none
  | some integration =>
    if !integration.enabled then none
    else
      let enabledFeatures := integration.enabledFeatures.getD []
      let hasProductSyncFeature :=
        decide (enabledFeatures.length = 0) || enabledFeatures.contains "sync_products"
      if !hasProductSyncFeature then none
      else some ⟨eventType, productId, channelId, integration.id⟩

/-- Lines 225-306, `processSyncJob`: reload the channel and integration
(skipping when missing or disabled), divert `deleted` jobs to
`syncDeletedProductToWordPress`, reload the product (skip when missing),
skip silently when the product no longer belongs to the job's channel, and
otherwise run the WordPress sync (a `mercadolibre` integration only logs). -/
def processSyncJob (st : OrchestratorState) (jd : ProductSyncJobData) (oracle : SyncOracle) :
    JobOutcome × SyncTraceRec :=
  match st.channels.find? (fun ch => decide (ch.id = jd.channelId)) with
  | none => (.completed, noCalls st.mappings)
  | some _ =>
    match st.integrations.find? (fun i => decide (i.id = jd.integrationId)) with
    | none => (.completed, noCalls st.mappings)
    | some integration =>
      if !integration.enabled then (.completed, noCalls st.mappings)
      else if jd.eventType = "deleted" then
        syncDeletedProductToWordPress st.mappings jd.productId (integration.id) oracle
      else
        match st.products.find? (fun p => decide (p.id = jd.productId)) with
        | none => (.completed, noCalls st.mappings)
        | some product =>
          if !(product.channelIds.contains jd.channelId) then
            (.completed, noCalls st.mappings)
          else if integration.type = "wordpress" then
            syncToWordPress st.mappings jd.eventType product.id (integration.id)
              product.mapped product.facetCount oracle
          else (.completed, noCalls st.mappings)

/-! ## Claim theorems: sync orchestrator -/

/-- C5.  A sync job is enqueued for a (product, channel) pair — through
`enqueueSyncForChannel`, which every trigger handler funnels into — if and
only if the channel resolves to an integration that exists, is enabled, and
whose `enabledFeatures` list is empty (back-compat "all enabled") or
contains `sync_products`; in every other case nothing is enqueued. -/
theorem enqueue_iff_integration_enabled_feature (st : OrchestratorState) (eventType : String)
    (productId channelId : Nat) :
    (enqueueSyncForChannel st eventType productId channelId).isSome = true ↔
      ∃ integration, getIntegrationForChannel st channelId = some integration ∧
        integration.enabled = true ∧
        (integration.enabledFeatures.getD [] = [] ∨
          "sync_products" ∈ integration.enabledFeatures.getD []) := by
  constructor
  · intro h
    unfold enqueueSyncForChannel at h
    cases hInt : getIntegrationForChannel st channelId with
    | none => rw [hInt] at h; simp at h
    | some integration =>
      rw [hInt] at h
      dsimp only at h
      by_cases hen : integration.enabled
      · rw [if_neg (by simp [hen])] at h
        by_cases hfeat : (decide ((integration.enabledFeatures.getD []).length = 0)
            || (integration.enabledFeatures.getD []).contains "sync_products") = true
        · refine ⟨integration, rfl, hen, ?_⟩
          rcases Bool.or_eq_true_iff.mp hfeat with hf | hf
          · exact Or.inl (List.length_eq_zero.mp (by simpa using hf))
          · exact Or.inr (by simpa using hf)
        · rw [if_pos (by simpa using hfeat)] at h
          simp at h
      · rw [if_pos (by simp [hen])] at h
        simp at h
  · rintro ⟨integration, hInt, hen, hfeat⟩
    unfold enqueueSyncForChannel
    rw [hInt]
    dsimp only
    rw [if_neg (by simp [hen])]
    have hcond : (decide ((integration.enabledFeatures.getD []).length = 0)
        || (integration.enabledFeatures.getD []).contains "sync_products") = true := by
      rcases hfeat with hf | hf
      · simp [hf]
      · simp [hf]
    rw [if_neg (by rw [hcond]; decide)]
    rfl

def enqueueWitnessState : OrchestratorState :=
  { channels := [⟨4, some 9⟩]
    integrations := [⟨9, "wp", "wordpress", true, some []⟩]
    products := []
    mappings := [] }

theorem enqueue_iff_integration_enabled_feature_witness :
    (enqueueSyncForChannel enqueueWitnessState "updated" 11 4).isSome = true :=
  (enqueue_iff_integration_enabled_feature enqueueWitnessState "updated" 11 4).mpr
    ⟨⟨9, "wp", "wordpress", true, some []⟩, rfl, rfl, Or.inl rfl⟩

/-- C8.  A non-`deleted` sync job whose freshly loaded product is no longer
assigned to the job's channel returns normally (`completed`, so the queue
sees success and does not retry) with no remote call issued and the mapping
store untouched. -/
theorem skip_when_product_not_in_channel (st : OrchestratorState) (jd : ProductSyncJobData)
    (oracle : SyncOracle) (product : OrchProductRec)
    (hev : jd.eventType ≠ "deleted")
    (hprod : st.products.find? (fun p => decide (p.id = jd.productId)) = some product)
    (hnotin : jd.channelId ∉ product.channelIds) :
    processSyncJob st jd oracle = (JobOutcome.completed, noCalls st.mappings) := by
  unfold processSyncJob
  cases hch : st.channels.find? (fun ch => decide (ch.id = jd.channelId)) with
  | none => rfl
  | some ch =>
    dsimp only
    cases hint : st.integrations.find? (fun i => decide (i.id = jd.integrationId)) with
    | none => rfl
    | some integration =>
      dsimp only
      by_cases hen : integration.enabled
      · rw [if_neg (by simp [hen]), if_neg hev, hprod]
        dsimp only
        rw [if_pos (by simpa using hnotin)]
      · rw [if_pos (by simp [hen])]

def skipWitnessState : OrchestratorState :=
  { channels := [⟨4, some 9⟩]
    integrations := [⟨9, "wp", "wordpress", true, some []⟩]
    products := [⟨11, [5], true, ⟨⟨"SKU-11", "simple"⟩, none⟩, 0⟩]
    mappings := [⟨11, 9, "77", "SKU-11"⟩] }

theorem skip_when_product_not_in_channel_witness :
    processSyncJob skipWitnessState ⟨"updated", 11, 4, 9⟩
        ⟨⟨true, none⟩, ⟨true, none⟩, ⟨true, some ()⟩, ⟨true, some ()⟩, ⟨true, none⟩⟩
      = (JobOutcome.completed, noCalls skipWitnessState.mappings) :=
  skip_when_product_not_in_channel skipWitnessState ⟨"updated", 11, 4, 9⟩
    ⟨⟨true, none⟩, ⟨true, none⟩, ⟨true, some ()⟩, ⟨true, some ()⟩, ⟨true, none⟩⟩
    ⟨11, [5], true, ⟨⟨"SKU-11", "simple"⟩, none⟩, 0⟩
    (by decide) rfl (by decide)

/-- C4 (amended: a stored mapping whose `externalProductId` does not
`parseInt` to a nonzero number is treated exactly like a missing mapping).
A `deleted` job with no usable mapping is a no-op with no remote call; with
a usable mapping it issues the remote delete and removes the local mapping
only when the remote delete succeeds, preserving it unchanged on failure;
either way it completes normally. -/
theorem deleted_job_mapping_behavior (mappings : List MappingRec) (pid iid : Nat)
    (oracle : SyncOracle) :
    (getMapping mappings pid iid = none →
      syncDeletedProductToWordPress mappings pid iid oracle
        = (JobOutcome.completed, noCalls mappings)) ∧
    (∀ m, getMapping mappings pid iid = some m →
      (parsedWpId m = none →
        syncDeletedProductToWordPress mappings pid iid oracle
          = (JobOutcome.completed, noCalls mappings)) ∧
      (∀ n, parsedWpId m = some n →
        (syncDeletedProductToWordPress mappings pid iid oracle).2.deleteCalled = true ∧
        (oracle.deleteProduct.success = true →
          (syncDeletedProductToWordPress mappings pid iid oracle).2.mappings
            = deleteMapping mappings pid iid) ∧
        (oracle.deleteProduct.success = false →
          (syncDeletedProductToWordPress mappings pid iid oracle).2.mappings = mappings) ∧
        (syncDeletedProductToWordPress mappings pid iid oracle).1
          = JobOutcome.completed)) := by
  refine ⟨?_, ?_⟩
  · intro hnone
    unfold syncDeletedProductToWordPress
    rw [hnone]
  · intro m hm
    refine ⟨?_, ?_⟩
    · intro hparse
      unfold syncDeletedProductToWordPress
      rw [hm]
      dsimp only
      rw [hparse]
    · intro n hparse
      unfold syncDeletedProductToWordPress
      rw [hm]
      dsimp only
      rw [hparse]
      dsimp only
      by_cases hdel : oracle.deleteProduct.success
      · rw [if_pos hdel]
        exact ⟨rfl, fun _ => rfl, fun hfalse => absurd hdel (by simp [hfalse]), rfl⟩
      · rw [if_neg hdel]
        exact ⟨rfl, fun htrue => absurd htrue hdel, fun _ => rfl, rfl⟩

def unparsableMappingStore : List MappingRec := [⟨7, 3, "legacy", ""⟩]

def allOkOracle : SyncOracle :=
  { findBySku := ⟨true, none⟩
    getProduct := ⟨true, none⟩
    deleteProduct := ⟨true, some ()⟩
    updateProduct := ⟨true, some ()⟩
    createProduct := ⟨true, none⟩ }

/-- C4 counterexample.  A mapping row exists for (product 7, integration 3)
but its `externalProductId` "legacy" parses to `NaN`, so the `deleted` job
issues no remote delete at all and leaves the mapping untouched — against
the claim that an existing mapping always triggers the remote delete. -/
theorem deleted_job_unparsable_mapping_cex :
    (getMapping unparsableMappingStore 7 3).isSome = true ∧
    (syncDeletedProductToWordPress unparsableMappingStore 7 3 allOkOracle).2.deleteCalled
      = false ∧
    (syncDeletedProductToWordPress unparsableMappingStore 7 3 allOkOracle).2.mappings
      = unparsableMappingStore := by
  refine ⟨?_, ?_, ?_⟩ <;> decide

theorem deleted_job_mapping_behavior_witness :
    (syncDeletedProductToWordPress [⟨7, 3, "42", "S"⟩] 7 3 allOkOracle).2.deleteCalled = true ∧
    (syncDeletedProductToWordPress [⟨7, 3, "42", "S"⟩] 7 3 allOkOracle).2.mappings = [] := by
  have h := ((deleted_job_mapping_behavior [⟨7, 3, "42", "S"⟩] 7 3 allOkOracle).2
    ⟨7, 3, "42", "S"⟩ (by decide)).2 42 (by decide)
  exact ⟨h.1, by rw [h.2.1 (by decide)]; decide⟩

/-- C2 (amended).  `syncToWordPress` never signals a failure to the queue:
its body is wrapped in a catch-all and every platform-client failure result
(create, update, delete, lookup — all returned as `{success: false}`,
never thrown) is logged and followed by a normal return, so the job always
completes with `JobOutcome.completed` and the queue does not retry;
moreover when both the update and the create call fail, no variation sync
is attempted. -/
theorem sync_api_failure_swallowed (mappings : List MappingRec) (eventType : String)
    (pid iid : Nat) (mapped : MappedLite) (facetCount : Nat) (oracle : SyncOracle) :
    (syncToWordPress mappings eventType pid iid mapped facetCount oracle).1
        = JobOutcome.completed ∧
    (oracle.updateProduct.success = false → oracle.createProduct.success = false →
      (syncToWordPress mappings eventType pid iid mapped facetCount oracle).2.variationsSynced
        = false) := by
  constructor
  · unfold syncToWordPress createPath
    dsimp only
    repeat' split
    all_goals rfl
  · intro hupd hcre
    unfold syncToWordPress createPath
    dsimp only
    repeat' split
    all_goals simp_all

def failingApiOracle : SyncOracle :=
  { findBySku := ⟨true, none⟩
    getProduct := ⟨true, none⟩
    deleteProduct := ⟨true, some ()⟩
    updateProduct := ⟨false, none⟩
    createProduct := ⟨false, none⟩ }

/-- C2 counterexample.  A sync job whose remote create call fails (the
client returns `{success: false}` for a 4xx/5xx) still returns normally:
the outcome is `completed`, not a thrown error, so the queue never sees a
failure to retry; the create was attempted and no mapping was recorded. -/
theorem sync_api_failure_returns_normally_cex :
    (syncToWordPress [] "updated" 1 1 ⟨⟨"SKU-1", "simple"⟩, none⟩ 0 failingApiOracle).1
        = JobOutcome.completed ∧
    (syncToWordPress [] "updated" 1 1 ⟨⟨"SKU-1", "simple"⟩, none⟩ 0
        failingApiOracle).2.createCalled = true ∧
    (syncToWordPress [] "updated" 1 1 ⟨⟨"SKU-1", "simple"⟩, none⟩ 0
        failingApiOracle).2.mappings = [] ∧
    (syncToWordPress [] "updated" 1 1 ⟨⟨"SKU-1", "simple"⟩, none⟩ 0
        failingApiOracle).1 ≠ JobOutcome.threwError := by
  refine ⟨?_, ?_, ?_, ?_⟩ <;> decide

theorem sync_api_failure_swallowed_witness :
    (syncToWordPress [⟨2, 1, "55", "SKU-2"⟩] "updated" 2 1 ⟨⟨"SKU-2", "simple"⟩,
        some [⟨"SKU-2-V"⟩]⟩ 0 failingApiOracle).1 = JobOutcome.completed ∧
    (syncToWordPress [⟨2, 1, "55", "SKU-2"⟩] "updated" 2 1 ⟨⟨"SKU-2", "simple"⟩,
        some [⟨"SKU-2-V"⟩]⟩ 0 failingApiOracle).2.variationsSynced = false := by
  have h := sync_api_failure_swallowed [⟨2, 1, "55", "SKU-2"⟩] "updated" 2 1
    ⟨⟨"SKU-2", "simple"⟩, some [⟨"SKU-2-V"⟩]⟩ 0 failingApiOracle
  exact ⟨h.1, h.2 rfl rfl⟩

/-! ## Platform client sanitization (wordpress.service.ts) -/

/-- Character-level model of JS `String.prototype.trim`. -/
def trimChars (cs : List Char) : List Char :=
  ((cs.dropWhile Char.isWhitespace).reverse.dropWhile Char.isWhitespace).reverse

def trimString (s : String) : String := ⟨trimChars s.toList⟩

def lowerString (s : String) : String := ⟨s.toList.map Char.toLower⟩

/-- Protocol (with trailing colon) and hostname of a parsed absolute URL,
both lowercased as the JS `URL` parser reports them. -/
structure UrlParts where
  protocol : String
  hostname : String
deriving DecidableEq

def isSchemeChar (c : Char) : Bool := c.isAlpha || c.isDigit || c = '+' || c = '-' || c = '.'

/-- Simplified model of the JS `new URL(...)` builtin on the image URLs this
code sanitizes: an absolute URL is a letter-led scheme followed by `:`;
with a `//` authority the hostname runs to the next `/`, `:`, `?` or `#`.
`none` models the constructor throwing (relative paths, no scheme).
Userinfo (`user@host`) is not modelled; the repository's image URLs carry
none. -/
def parseUrlJs (s : String) : Option UrlParts :=
  let cs := s.toList
  match cs with
  | [] => none
  | c0 :: _ =>
    if !c0.isAlpha then none
    else
      let scheme := cs.takeWhile isSchemeChar
      let rest := cs.drop scheme.length
      match rest with
      | ':' :: rest2 =>
        let host :=
          match rest2 with
          | '/' :: '/' :: rest3 =>
            rest3.takeWhile (fun c => decide (c ≠ '/' ∧ c ≠ ':' ∧ c ≠ '?' ∧ c ≠ '#'))
          | _ => []
        some ⟨⟨scheme.map Char.toLower ++ [':']⟩, ⟨host.map Char.toLower⟩⟩
      | _ => none

/-- Lines 732-746, `isValidExternalImageUrl`: parse the URL (`false` when
the constructor throws), require an http(s) protocol and a nonempty
hostname different from the blocklisted `"source"` sentinel. -/
def isValidExternalImageUrl (url : String) : Bool :=
  match parseUrlJs url with
  | none => false
  | some parsed =>
    if parsed.protocol ≠ "http:" ∧ parsed.protocol ≠ "https:" then false
    else
      let hostname := lowerString parsed.hostname
      if hostname = "" ∨ hostname = "source" then false
      else true

structure ImageEntry where
  src : String
  name : Option String
  alt : Option String
deriving DecidableEq

structure WpAttr where
  name : String
  position : Nat
  visible : Bool
  variation : Bool
  options : List String
deriving DecidableEq

/-- The payload fields `sanitizeProductPayload` touches. -/
structure WordPressProductPayload where
  sku : String
  type : String
  images : Option (List ImageEntry)
  attributes : Option (List WpAttr)
deriving DecidableEq

/-- Lines 612-626, the image filter: drop entries whose trimmed `src` is
empty, fails `isValidExternalImageUrl`, or repeats an already-kept trimmed
`src` (the `unique` Set); kept entries stay in order with their original
`src`. -/
def filterValidImages (seen : List String) : List ImageEntry → List ImageEntry
  | [] => []
  | img :: rest =>
    let src := trimString img.src
    if src = "" then filterValidImages seen rest
    else if !(isValidExternalImageUrl src) then filterValidImages seen rest
    else if src ∈ seen then filterValidImages seen rest
    else img :: filterValidImages (src :: seen) rest

/-- Keep the first occurrence of each string not already seen (JS `Set`
insertion semantics). -/
def dedupKeepFirst (seen : List String) : List String → List String
  | [] => []
  | x :: xs => if x ∈ seen then dedupKeepFirst seen xs else x :: dedupKeepFirst (x :: seen) xs

/-- Lines 695-727, the attribute loop of `sanitizeProductAttributes`: trim
the name, skip empty or case-insensitively duplicated names, trim and
dedup the options dropping empties, skip attributes left with no options,
and reassign sequential positions. -/
def sanitizeAttributesGo (names : List String) (position : Nat) :
    List WpAttr → List WpAttr
  | [] => []
  | a :: rest =>
    let name := trimString a.name
    if name = "" ∨ lowerString name ∈ names then sanitizeAttributesGo names position rest
    else
      let options := dedupKeepFirst [] ((a.options.map trimString).filter (fun o => o ≠ ""))
      if options = [] then sanitizeAttributesGo names position rest
      else
        { name := name, position := position, visible := a.visible, variation := a.variation,
          options := options } :: sanitizeAttributesGo (lowerString name :: names) (position + 1) rest

/-- Lines 684-730, `sanitizeProductAttributes`: `undefined` for a non-array
input or when nothing survives. -/
def sanitizeProductAttributes (attributes : Option (List WpAttr)) : Option (List WpAttr) :=
  match attributes with
  | none => none
  | some attrs =>
    let sanitized := sanitizeAttributesGo [] 0 attrs
    if sanitized = [] then none else some sanitized

/-- Lines 595-642, `sanitizeProductPayload`: sanitize the attributes field
(deleting it when nothing survives), return unchanged when `images` is not
an array, else filter-and-dedup the images, deleting the field when no
image survives. -/
def sanitizeProductPayload (payload : WordPressProductPayload) : WordPressProductPayload :=
  let sanitized := { payload with attributes := sanitizeProductAttributes payload.attributes }
  match sanitized.images with
  | none => sanitized
  | some imgs =>
    let validImages := filterValidImages [] imgs
    if validImages.isEmpty then { sanitized with images := none }
    else { sanitized with images := some validImages }

/-- Claim-side reading of a keepable image: nonempty trimmed URL that
parses as an absolute http(s) URL with a nonempty hostname different from
the blocklisted `source` sentinel. -/
def specImageOk (img : ImageEntry) : Bool :=
  let u := trimString img.src
  if u = "" then false
  else
    match parseUrlJs u with
    | none => false
    | some parts =>
      (parts.protocol = "http:" || parts.protocol = "https:")
        && !(lowerString parts.hostname = "") && !(lowerString parts.hostname = "source")

/-! ## Lemmas: image sanitization -/

theorem specImageOk_iff (img : ImageEntry) :
    specImageOk img = true ↔
      (trimString img.src ≠ "" ∧ isValidExternalImageUrl (trimString img.src) = true) := by
  unfold specImageOk isValidExternalImageUrl
  by_cases h : trimString img.src = ""
  · simp [h]
  · simp only [ne_eq, h, not_false_eq_true, true_and, if_false]
    cases hp : parseUrlJs (trimString img.src) with
    | none => simp
    | some parts =>
      dsimp only
      by_cases hpr : parts.protocol ≠ "http:" ∧ parts.protocol ≠ "https:"
      · rw [if_pos hpr]
        simp only [Bool.false_eq_true, iff_false]
        intro hand
        rcases Bool.and_eq_true_iff.mp hand with ⟨hand2, _⟩
        rcases Bool.and_eq_true_iff.mp hand2 with ⟨hor, _⟩
        rcases Bool.or_eq_true_iff.mp hor with hh | hh
        · exact hpr.1 (by simpa using hh)
        · exact hpr.2 (by simpa using hh)
      · rw [if_neg hpr]
        rcases Decidable.not_and_iff_or_not.mp hpr with hh | hh <;>
        · rw [Decidable.not_not] at hh
          by_cases hhost : lowerString parts.hostname = "" ∨ lowerString parts.hostname = "source"
          · rw [if_pos hhost]
            simp only [Bool.false_eq_true, iff_false]
            intro hand
            rcases Bool.and_eq_true_iff.mp hand with ⟨hand2, hs⟩
            rcases Bool.and_eq_true_iff.mp hand2 with ⟨_, he⟩
            rcases hhost with hcase | hcase
            · simp [hcase] at he
            · simp [hcase] at hs
          · rw [if_neg hhost]
            push_neg at hhost
            simp [hh, hhost.1, hhost.2]

theorem filterValidImages_sublist (seen : List String) (l : List ImageEntry) :
    (filterValidImages seen l).Sublist l := by
  induction l generalizing seen with
  | nil => exact List.Sublist.refl _
  | cons img rest ih =>
    unfold filterValidImages
    dsimp only
    split
    · exact (ih seen).cons _
    · split
      · exact (ih seen).cons _
      · split
        · exact (ih seen).cons _
        · exact (ih _).cons₂ _

theorem mem_filterValidImages_valid (seen : List String) (l : List ImageEntry)
    (img : ImageEntry) (h : img ∈ filterValidImages seen l) : specImageOk img = true := by
  induction l generalizing seen with
  | nil => simp [filterValidImages] at h
  | cons i rest ih =>
    unfold filterValidImages at h
    dsimp only at h
    by_cases h1 : trimString i.src = ""
    · rw [if_pos h1] at h
      exact ih seen h
    · rw [if_neg h1] at h
      by_cases h2 : isValidExternalImageUrl (trimString i.src) = true
      · rw [if_neg (by simp [h2])] at h
        by_cases h3 : trimString i.src ∈ seen
        · rw [if_pos h3] at h
          exact ih seen h
        · rw [if_neg h3] at h
          rcases List.mem_cons.mp h with rfl | hmem
          · exact (specImageOk_iff _).mpr ⟨h1, h2⟩
          · exact ih _ hmem
      · rw [if_pos (by simp [Bool.eq_false_iff.mpr h2])] at h
        exact ih seen h

theorem filterValidImages_trims_nodup (seen : List String) (l : List ImageEntry) :
    ((filterValidImages seen l).map (fun i => trimString i.src)).Nodup ∧
    (∀ t ∈ (filterValidImages seen l).map (fun i => trimString i.src), t ∉ seen) := by
  induction l generalizing seen with
  | nil => simp [filterValidImages]
  | cons i rest ih =>
    unfold filterValidImages
    dsimp only
    by_cases h1 : trimString i.src = ""
    · rw [if_pos h1]
      exact ih seen
    · rw [if_neg h1]
      by_cases h2 : isValidExternalImageUrl (trimString i.src) = true
      · rw [if_neg (by simp [h2])]
        by_cases h3 : trimString i.src ∈ seen
        · rw [if_pos h3]
          exact ih seen
        · rw [if_neg h3]
          obtain ⟨hnd, hfresh⟩ := ih (trimString i.src :: seen)
          constructor
          · simp only [List.map_cons, List.nodup_cons]
            exact ⟨fun hmem => (hfresh _ hmem) (List.mem_cons_self _ _), hnd⟩
          · intro t ht
            simp only [List.map_cons, List.mem_cons] at ht
            rcases ht with rfl | ht
            · exact h3
            · exact fun hts => (hfresh t ht) (List.mem_cons_of_mem _ hts)
      · rw [if_pos (by simp [Bool.eq_false_iff.mpr h2])]
        exact ih seen

theorem filterValidImages_complete (seen : List String) (l : List ImageEntry)
    (img : ImageEntry) (hmem : img ∈ l) (hok : specImageOk img = true) :
    trimString img.src ∈ seen ∨
      trimString img.src ∈ (filterValidImages seen l).map (fun i => trimString i.src) := by
  induction l generalizing seen with
  | nil => simp at hmem
  | cons i rest ih =>
    unfold filterValidImages
    dsimp only
    rcases List.mem_cons.mp hmem with rfl | hmem'
    · obtain ⟨hne, hval⟩ := (specImageOk_iff _).mp hok
      rw [if_neg hne, if_neg (by simp [hval])]
      by_cases h3 : trimString img.src ∈ seen
      · exact Or.inl h3
      · rw [if_neg h3]
        right
        simp
    · by_cases h1 : trimString i.src = ""
      · rw [if_pos h1]
        exact ih seen hmem'
      · rw [if_neg h1]
        by_cases h2 : isValidExternalImageUrl (trimString i.src) = true
        · rw [if_neg (by simp [h2])]
          by_cases h3 : trimString i.src ∈ seen
          · rw [if_pos h3]
            exact ih seen hmem'
          · rw [if_neg h3]
            rcases ih (trimString i.src :: seen) hmem' with hc | hc
            · rcases List.mem_cons.mp hc with heq | hc2
              · right
                simp [heq]
              · exact Or.inl hc2
            · right
              simp only [List.map_cons, List.mem_cons]
              exact Or.inr hc
        · rw [if_pos (by simp [Bool.eq_false_iff.mpr h2])]
          exact ih seen hmem'

theorem filterValidImages_empty_of_all_invalid (seen : List String) (l : List ImageEntry)
    (h : ∀ img ∈ l, specImageOk img = false) : filterValidImages seen l = [] := by
  induction l generalizing seen with
  | nil => rfl
  | cons i rest ih =>
    unfold filterValidImages
    dsimp only
    have hi := h i (List.mem_cons_self _ _)
    by_cases h1 : trimString i.src = ""
    · rw [if_pos h1]
      exact ih seen (fun img hm => h img (List.mem_cons_of_mem _ hm))
    · rw [if_neg h1]
      by_cases h2 : isValidExternalImageUrl (trimString i.src) = true
      · exact absurd ((specImageOk_iff _).mpr ⟨h1, h2⟩) (by simp [hi])
      · rw [if_pos (by simp [Bool.eq_false_iff.mpr h2])]
        exact ih seen (fun img hm => h img (List.mem_cons_of_mem _ hm))

/-- C7.  `sanitizeProductPayload` keeps only images whose trimmed URL is a
valid absolute http(s) URL with a non-blocklisted hostname (first
conjunct), deduplicated by trimmed URL (second) in first-occurrence order
(third: the survivors form a sublist), keeping a representative of every
valid URL (fourth); the `images` field is omitted exactly when no image
survives (fifth); and the claim's concrete instance — a relative path, a
valid absolute URL and its duplicate — yields exactly one image (sixth). -/
theorem sanitize_images_spec (payload : WordPressProductPayload) (imgs : List ImageEntry)
    (h : payload.images = some imgs) :
    (∀ img ∈ (sanitizeProductPayload payload).images.getD [],
        img ∈ imgs ∧ specImageOk img = true) ∧
    (((sanitizeProductPayload payload).images.getD []).map (fun i => trimString i.src)).Nodup ∧
    ((sanitizeProductPayload payload).images.getD []).Sublist imgs ∧
    (∀ img ∈ imgs, specImageOk img = true →
      trimString img.src
        ∈ ((sanitizeProductPayload payload).images.getD []).map (fun i => trimString i.src)) ∧
    ((sanitizeProductPayload payload).images = none ↔
        ∀ img ∈ imgs, specImageOk img = false) ∧
    (sanitizeProductPayload
        ⟨"S", "simple",
          some [⟨"images/rel.jpg", none, none⟩, ⟨"https://cdn.example.com/a.jpg", none, none⟩,
            ⟨"https://cdn.example.com/a.jpg", none, none⟩], none⟩).images
      = some [⟨"https://cdn.example.com/a.jpg", none, none⟩] := by
  have himg : (sanitizeProductPayload payload).images
      = (if (filterValidImages [] imgs).isEmpty then none
         else some (filterValidImages [] imgs)) := by
    unfold sanitizeProductPayload
    dsimp only
    rw [h]
    dsimp only
    split <;> rfl
  rw [himg]
  by_cases hemp : (filterValidImages [] imgs).isEmpty
  · rw [if_pos hemp]
    rw [List.isEmpty_iff] at hemp
    refine ⟨by simp, by simp, by simp, ?_, ?_, by decide⟩
    · intro img hm hok
      rcases filterValidImages_complete [] imgs img hm hok with hc | hc
      · simp at hc
      · rw [hemp] at hc
        simp at hc
    · simp only [true_iff]
      intro img hm
      by_cases hok : specImageOk img = true
      · rcases filterValidImages_complete [] imgs img hm hok with hc | hc
        · simp at hc
        · rw [hemp] at hc
          simp at hc
      · exact Bool.eq_false_iff.mpr hok
  · rw [if_neg hemp]
    refine ⟨?_, (filterValidImages_trims_nodup [] imgs).1, filterValidImages_sublist [] imgs,
      ?_, ?_, by decide⟩
    · intro img hm
      simp only [Option.getD_some] at hm
      exact ⟨(filterValidImages_sublist [] imgs).mem hm,
        mem_filterValidImages_valid [] imgs img hm⟩
    · intro img hm hok
      rcases filterValidImages_complete [] imgs img hm hok with hc | hc
      · simp at hc
      · simpa using hc
    · constructor
      · intro hc
        exact Option.noConfusion hc
      · intro hall
        exact absurd (by rw [filterValidImages_empty_of_all_invalid [] imgs hall]; rfl) hemp

def sanitizeWitnessImages : List ImageEntry :=
  [⟨"images/rel.jpg", none, none⟩, ⟨"https://cdn.example.com/a.jpg", none, none⟩,
    ⟨"https://cdn.example.com/a.jpg", none, none⟩]

theorem sanitize_images_spec_witness :
    (sanitizeProductPayload ⟨"S", "simple", some sanitizeWitnessImages, none⟩).images
      = some [⟨"https://cdn.example.com/a.jpg", none, none⟩] :=
  (sanitize_images_spec ⟨"S", "simple", some sanitizeWitnessImages, none⟩
    sanitizeWitnessImages rfl).2.2.2.2.2

/-! ## Entity mapper attributes (product-mapper.service.ts) -/

structure OptionGroupRec where
  translations : List String
  name : String
  code : String
deriving DecidableEq

structure OptionRec where
  translations : List String
  name : String
  code : String
  group : Option OptionGroupRec
  groupId : Option Nat
deriving DecidableEq

/-- A variant as the mapper's attribute extraction consumes it. -/
structure MapVariant where
  id : Nat
  name : String
  sku : String
  options : List OptionRec
deriving DecidableEq

def mapDummyVariant : MapVariant := ⟨0, "", "", []⟩

/-- Lines 280-292, `getOptionGroupName`: translated name, then raw group
name, then group code, then `String(groupId)`, then "Attribute"
(`normalizeToString` on these string-typed fields is a trim). -/
def getOptionGroupName (o : OptionRec) : String :=
  let t1 := trimString ((o.group.bind (fun g => g.translations.head?)).getD "")
  let t2 := trimString ((o.group.map OptionGroupRec.name).getD "")
  let translated := if t1 ≠ "" then t1 else t2
  if translated ≠ "" then translated
  else
    let c := trimString ((o.group.map OptionGroupRec.code).getD "")
    if c ≠ "" then c
    else
      match o.groupId with
      | some gid => toString gid
      | none => "Attribute"

/-- Lines 294-302, `getOptionValueName`: translated name, then raw name,
then code, then "Option". -/
def getOptionValueName (o : OptionRec) : String :=
  let t1 := trimString (o.translations.head?.getD "")
  let t2 := trimString o.name
  let translated := if t1 ≠ "" then t1 else t2
  if translated ≠ "" then translated
  else
    let c := trimString o.code
    if c ≠ "" then c else "Option"

/-- Insertion-ordered `Map<string, Set<string>>` update of lines 221-224:
add the option name to the group's set, creating the entry at the end on a
new group name. -/
def insertOption (m : List (String × List String)) (g o : String) :
    List (String × List String) :=
  if m.any (fun e => decide (e.1 = g)) then
    m.map (fun e => if e.1 = g then (e.1, if o ∈ e.2 then e.2 else e.2 ++ [o]) else e)
  else m ++ [(g, [o])]

/-- Lines 213-226: fold every option of every variant into the attribute
map. -/
def collectAttributeMap (variants : List MapVariant) : List (String × List String) :=
  variants.foldl
    (fun m v =>
      v.options.foldl
        (fun m2 o => insertOption m2 (getOptionGroupName o) (getOptionValueName o)) m)
    []

/-- Lines 212-252, `extractAttributes`: one attribute per distinct group
name with sequential positions, falling back to a single synthetic
"Variant" attribute listing each variant's name (or `Variant i+1`) when no
variant has options. -/
def extractAttributes (variants : List MapVariant) : List WpAttr :=
  let attributeMap := collectAttributeMap variants
  let attributes := attributeMap.enum.map
    (fun e =>
      { name := e.2.1, position := e.1, visible := true, variation := true, options := e.2.2 })
  if attributes.isEmpty then
    [{ name := "Variant", position := 0, visible := true, variation := true,
        options := variants.enum.map
          (fun e => if e.2.name ≠ "" then e.2.name else "Variant " ++ toString (e.1 + 1)) }]
  else attributes

structure VariationAttr where
  name : String
  option : String
deriving DecidableEq

/-- Lines 254-278, `getVariantAttributes`: one (group name, option name)
entry per option the variant sets, with a single synthetic
("Variant", variant name) entry when the variant has no options but a
truthy name. -/
def getVariantAttributes (variant : MapVariant) : List VariationAttr :=
  let attributes := variant.options.map
    (fun o => VariationAttr.mk (getOptionGroupName o) (getOptionValueName o))
  if attributes.isEmpty ∧ variant.name ≠ "" then [⟨"Variant", variant.name⟩]
  else attributes

/-- A mapped variation restricted to the fields the claims concern (sku and
attribute list; price/stock/image fields are not modelled). -/
structure VariationLiteRec where
  sku : String
  attributes : List VariationAttr
deriving DecidableEq

def dummyVariationLite : VariationLiteRec := ⟨"", []⟩

/-- Lines 177-207 of `createVariableProduct`: exactly one variation record
per variant. -/
def variableProductVariations (variants : List MapVariant) : List VariationLiteRec :=
  variants.map (fun v =>
    { sku := if v.sku ≠ "" then v.sku else "vendure-variant-" ++ toString v.id
      attributes := getVariantAttributes v })

/-- Claim-side list of option-group names across all variants, in source
order. -/
def allGroupNames (variants : List MapVariant) : List String :=
  (variants.map (fun v => v.options.map getOptionGroupName)).flatten

/-- Claim-side (group name, option name) pairs across all variants. -/
def optionPairs (variants : List MapVariant) : List (String × String) :=
  (variants.map (fun v =>
    v.options.map (fun o => (getOptionGroupName o, getOptionValueName o)))).flatten

/-! ## Lemmas: attribute extraction -/

theorem dedupKeepFirst_congr (seen1 seen2 : List String) (l : List String)
    (h : ∀ x, x ∈ seen1 ↔ x ∈ seen2) :
    dedupKeepFirst seen1 l = dedupKeepFirst seen2 l := by
  induction l generalizing seen1 seen2 with
  | nil => rfl
  | cons x xs ih =>
    unfold dedupKeepFirst
    by_cases hx : x ∈ seen1
    · rw [if_pos hx, if_pos ((h x).mp hx)]
      exact ih _ _ h
    · rw [if_neg hx, if_neg (fun hc => hx ((h x).mpr hc))]
      rw [ih (x :: seen1) (x :: seen2) (by intro y; simp [h y])]

theorem dedupKeepFirst_nodup_fresh (seen : List String) (l : List String) :
    (dedupKeepFirst seen l).Nodup ∧ ∀ x ∈ dedupKeepFirst seen l, x ∉ seen := by
  induction l generalizing seen with
  | nil => simp [dedupKeepFirst]
  | cons x xs ih =>
    unfold dedupKeepFirst
    by_cases hx : x ∈ seen
    · rw [if_pos hx]
      exact ih seen
    · rw [if_neg hx]
      obtain ⟨hnd, hfresh⟩ := ih (x :: seen)
      refine ⟨List.nodup_cons.mpr ⟨fun hm => (hfresh x hm) (List.mem_cons_self _ _), hnd⟩, ?_⟩
      intro y hy
      rcases List.mem_cons.mp hy with rfl | hy'
      · exact hx
      · exact fun hys => (hfresh y hy') (List.mem_cons_of_mem _ hys)

theorem mem_dedupKeepFirst (seen : List String) (l : List String) (x : String) :
    x ∈ dedupKeepFirst seen l ↔ (x ∈ l ∧ x ∉ seen) := by
  induction l generalizing seen with
  | nil => simp [dedupKeepFirst]
  | cons y ys ih =>
    unfold dedupKeepFirst
    by_cases hy : y ∈ seen
    · rw [if_pos hy, ih seen]
      constructor
      · rintro ⟨hm, hs⟩
        exact ⟨List.mem_cons_of_mem _ hm, hs⟩
      · rintro ⟨hm, hs⟩
        rcases List.mem_cons.mp hm with rfl | hm'
        · exact absurd hy hs
        · exact ⟨hm', hs⟩
    · rw [if_neg hy]
      constructor
      · intro hm
        rcases List.mem_cons.mp hm with rfl | hm'
        · exact ⟨List.mem_cons_self _ _, hy⟩
        · obtain ⟨h1, h2⟩ := (ih (y :: seen)).mp hm'
          exact ⟨List.mem_cons_of_mem _ h1, fun hs => h2 (List.mem_cons_of_mem _ hs)⟩
      · rintro ⟨hm, hs⟩
        rcases List.mem_cons.mp hm with rfl | hm'
        · exact List.mem_cons_self _ _
        · by_cases hxy : x = y
          · subst hxy
            exact List.mem_cons_self _ _
          · exact List.mem_cons_of_mem _
              ((ih (y :: seen)).mpr ⟨hm', by simp [hxy, hs]⟩)

theorem insertOption_keys (m : List (String × List String)) (g o : String) :
    (insertOption m g o).map Prod.fst
      = if g ∈ m.map Prod.fst then m.map Prod.fst else m.map Prod.fst ++ [g] := by
  unfold insertOption
  by_cases h : m.any (fun e => decide (e.1 = g)) = true
  · rw [if_pos h, if_pos (by
      rcases List.any_eq_true.mp h with ⟨e, he, hg⟩
      exact List.mem_map.mpr ⟨e, he, by simpa using (by simpa using hg : e.1 = g)⟩)]
    rw [List.map_map]
    apply List.map_congr_left
    intro e _
    by_cases hg : e.1 = g
    · simp [hg]
    · simp [hg]
  · rw [if_neg h, if_neg (by
      intro hmem
      apply h
      rcases List.mem_map.mp hmem with ⟨e, he, hg⟩
      exact List.any_eq_true.mpr ⟨e, he, by simpa using hg⟩)]
    simp

theorem dedupKeepFirst_cons (seen : List String) (x : String) (xs : List String) :
    dedupKeepFirst seen (x :: xs)
      = if x ∈ seen then dedupKeepFirst seen xs else x :: dedupKeepFirst (x :: seen) xs := rfl

theorem foldl_insertOption_keys (ps : List (String × String)) (m : List (String × List String)) :
    ((ps.foldl (fun acc p => insertOption acc p.1 p.2) m).map Prod.fst)
      = m.map Prod.fst ++ dedupKeepFirst (m.map Prod.fst) (ps.map Prod.fst) := by
  induction ps generalizing m with
  | nil => simp [dedupKeepFirst]
  | cons p rest ih =>
    simp only [List.foldl_cons, List.map_cons]
    rw [ih, insertOption_keys, dedupKeepFirst_cons]
    by_cases h : p.1 ∈ m.map Prod.fst
    · rw [if_pos h, if_pos h]
    · rw [if_neg h, if_neg h]
      rw [List.append_assoc, List.singleton_append]
      rw [dedupKeepFirst_congr (m.map Prod.fst ++ [p.1]) (p.1 :: m.map Prod.fst) _
        (by intro y; simp [Or.comm])]

theorem foldl_insert_options_inner (options : List OptionRec)
    (m0 : List (String × List String)) :
    options.foldl
        (fun m2 o => insertOption m2 (getOptionGroupName o) (getOptionValueName o)) m0
      = (options.map (fun o => (getOptionGroupName o, getOptionValueName o))).foldl
          (fun acc p => insertOption acc p.1 p.2) m0 := by
  induction options generalizing m0 with
  | nil => rfl
  | cons o rest ih =>
    simp only [List.map_cons, List.foldl_cons]
    exact ih _

theorem collectAttributeMap_eq_foldl_pairs (variants : List MapVariant) :
    collectAttributeMap variants
      = (optionPairs variants).foldl (fun acc p => insertOption acc p.1 p.2) [] := by
  unfold collectAttributeMap optionPairs
  generalize ([] : List (String × List String)) = m0
  induction variants generalizing m0 with
  | nil => rfl
  | cons v rest ih =>
    simp only [List.foldl_cons, List.map_cons, List.flatten_cons, List.foldl_append]
    rw [foldl_insert_options_inner, ih]

theorem optionPairs_map_fst (variants : List MapVariant) :
    (optionPairs variants).map Prod.fst = allGroupNames variants := by
  unfold optionPairs allGroupNames
  induction variants with
  | nil => rfl
  | cons v rest ih =>
    simp only [List.map_cons, List.flatten_cons, List.map_append, ih, List.map_map]
    rfl

theorem collectAttributeMap_keys (variants : List MapVariant) :
    (collectAttributeMap variants).map Prod.fst
      = dedupKeepFirst [] (allGroupNames variants) := by
  rw [collectAttributeMap_eq_foldl_pairs, foldl_insertOption_keys, optionPairs_map_fst]
  simp

theorem extractAttributes_names (variants : List MapVariant)
    (hne : collectAttributeMap variants ≠ []) :
    (extractAttributes variants).map WpAttr.name
      = dedupKeepFirst [] (allGroupNames variants) := by
  unfold extractAttributes
  dsimp only
  rw [if_neg (by
    simp only [List.isEmpty_iff]
    intro hc
    apply hne
    have := congrArg List.length hc
    simp only [List.length_map, List.enum_length, List.length_nil] at this
    exact List.length_eq_zero.mp this)]
  rw [List.map_map]
  have : (WpAttr.name ∘ fun e : Nat × (String × List String) =>
      ({ name := e.2.1, position := e.1, visible := true, variation := true,
         options := e.2.2 } : WpAttr)) = (fun e : Nat × (String × List String) => e.2.1) := rfl
  rw [this]
  have h2 : (fun e : Nat × (String × List String) => e.2.1)
      = (Prod.fst ∘ Prod.snd) := rfl
  rw [h2, ← List.map_map, List.enum_map_snd, collectAttributeMap_keys]

theorem collectAttributeMap_nil_iff (variants : List MapVariant) :
    collectAttributeMap variants = [] ↔ allGroupNames variants = [] := by
  constructor
  · intro h
    have hk := collectAttributeMap_keys variants
    rw [h] at hk
    cases hg : allGroupNames variants with
    | nil => rfl
    | cons x xs =>
      rw [hg, dedupKeepFirst_cons] at hk
      simp at hk
  · intro h
    have hk := collectAttributeMap_keys variants
    rw [h] at hk
    have hm : (collectAttributeMap variants).map Prod.fst = [] := by
      simpa [dedupKeepFirst] using hk
    cases hc : collectAttributeMap variants with
    | nil => rfl
    | cons y ys => rw [hc] at hm; simp at hm

/-! ## Claim theorems: entity mapper -/

/-- C6 (amended).  For a product with at least two variants the mapper
emits: exactly one attribute entry per distinct option-group name across
all variants (names without duplicates, covering exactly the group names
that occur) when some variant has options, and otherwise the single
synthetic "Variant" attribute listing each variant's name (or
`Variant i+1`); exactly one variation record per variant; and each
variation's attribute list has exactly one (name, option) entry per option
the variant sets — except that a variant setting no options gets the
single synthetic ("Variant", name) entry when its name is nonempty, and an
empty list otherwise. -/
theorem variable_product_attributes_spec (variants : List MapVariant)
    (hN : 2 ≤ variants.length) :
    (allGroupNames variants ≠ [] →
      ((extractAttributes variants).map WpAttr.name).Nodup ∧
      (∀ g, g ∈ (extractAttributes variants).map WpAttr.name ↔ g ∈ allGroupNames variants)) ∧
    (allGroupNames variants = [] →
      extractAttributes variants
        = [⟨"Variant", 0, true, true,
            variants.enum.map (fun e =>
              if e.2.name ≠ "" then e.2.name else "Variant " ++ toString (e.1 + 1))⟩]) ∧
    (variableProductVariations variants).length = variants.length ∧
    (∀ i, i < variants.length →
      ((variants.getD i mapDummyVariant).options ≠ [] →
        ((variableProductVariations variants).getD i dummyVariationLite).attributes
          = (variants.getD i mapDummyVariant).options.map
              (fun o => VariationAttr.mk (getOptionGroupName o) (getOptionValueName o))) ∧
      ((variants.getD i mapDummyVariant).options = [] →
        ((variableProductVariations variants).getD i dummyVariationLite).attributes
          = (if (variants.getD i mapDummyVariant).name ≠ ""
             then [⟨"Variant", (variants.getD i mapDummyVariant).name⟩] else []))) := by
  refine ⟨?_, ?_, ?_, ?_⟩
  · intro hne
    have hmap : collectAttributeMap variants ≠ [] :=
      fun hc => hne ((collectAttributeMap_nil_iff variants).mp hc)
    rw [extractAttributes_names variants hmap]
    refine ⟨(dedupKeepFirst_nodup_fresh [] _).1, ?_⟩
    intro g
    rw [mem_dedupKeepFirst]
    simp
  · intro hnil
    unfold extractAttributes
    dsimp only
    rw [if_pos (by
      rw [(collectAttributeMap_nil_iff variants).mpr hnil]
      rfl)]
  · exact List.length_map _ _
  · intro i hi
    have hvd : (variableProductVariations variants).getD i dummyVariationLite
        = { sku := if (variants.getD i mapDummyVariant).sku ≠ ""
              then (variants.getD i mapDummyVariant).sku
              else "vendure-variant-" ++ toString (variants.getD i mapDummyVariant).id
            attributes := getVariantAttributes (variants.getD i mapDummyVariant) } := by
      unfold variableProductVariations
      rw [getD_map_of_lt _ _ _ mapDummyVariant _ hi]
    rw [hvd]
    constructor
    · intro hopts
      dsimp only
      unfold getVariantAttributes
      rw [if_neg (by
        intro hc
        exact hopts (by simpa using hc.1))]
    · intro hopts
      dsimp only
      unfold getVariantAttributes
      rw [hopts]
      by_cases hname : (variants.getD i mapDummyVariant).name ≠ ""
      · rw [if_pos ⟨by simp, hname⟩, if_pos hname]
      · rw [if_neg (fun hc => hname hc.2), if_neg hname]
        simp

def cexVariantWithOption : MapVariant :=
  ⟨101, "V1", "SKU-A",
    [⟨[], "Red", "red", some ⟨[], "Color", "color"⟩, some 1⟩]⟩

def cexVariantNoOptions : MapVariant := ⟨102, "V2", "SKU-B", []⟩

/-- C6 counterexample.  In a two-variant product where the second variant
sets no options (but other variants do have option groups, so the
product-level fallback does not apply), the second variation still carries
one synthetic ("Variant", "V2") attribute entry — not "exactly one entry
per option the variant actually sets", which would be zero entries. -/
theorem variation_attrs_fallback_cex :
    (variableProductVariations [cexVariantWithOption, cexVariantNoOptions]).length = 2 ∧
    ((variableProductVariations [cexVariantWithOption, cexVariantNoOptions]).getD 1
        dummyVariationLite).attributes = [⟨"Variant", "V2"⟩] ∧
    cexVariantNoOptions.options.length = 0 ∧
    allGroupNames [cexVariantWithOption, cexVariantNoOptions] = ["Color"] := by
  refine ⟨rfl, by decide, rfl, by decide⟩

theorem variable_product_attributes_spec_witness :
    ((extractAttributes [cexVariantWithOption, cexVariantWithOption]).map WpAttr.name).Nodup ∧
    (variableProductVariations [cexVariantWithOption, cexVariantWithOption]).length = 2 := by
  have h := variable_product_attributes_spec [cexVariantWithOption, cexVariantWithOption]
    (by decide)
  exact ⟨(h.1 (by decide)).1, h.2.2.1⟩
